import Mathlib

/-!
Verification of the PSEUDOKU solver engine.

This file gives a shallow embedding, in Lean 4, of the parts of the solver
that the specification's claims are about:

* the `ValueSet` bitset and the `Board` grid (`board.cpp`, `board.h`;
  the `ValueSet` implementation file is not among the sources, so it is
  modelled from the specification's description, see the note on
  `ValueSet` below);
* the constraint-propagation engine (`constraintpropagation.cpp`):
  `Rule1_Elimination`, `Rule2_HiddenSingle`, `PropagateConstraints` and
  `SetCellAndPropagate`, via fuel-indexed mutual recursion (the C++
  recursion terminates because `numFixedCells` strictly increases; the
  fuel is an upper bound on the recursion depth, and a run that would
  exhaust it returns the board unchanged);
* the board constructor `Board::Board(string)` and `Board::CheckSolution`;
* the single-colony solve loop of `sudokuantsystem.cpp` (floats whose
  infinities matter are modelled by `Flt`, exact rationals plus `+inf`);
* the sub-colony pheromone updates and the two communication topologies of
  `parallelsudokuantsystem.cpp`.

C arrays are modelled as Lean lists (boards, colony vectors) or as index
functions (pheromone matrices, the per-cell contribution scratch arrays);
IEEE `float` arithmetic is modelled by exact rationals, except where a
claim depends on division by zero, where `Flt` records the IEEE result
`+inf` of dividing a positive finite float by zero.
-/

namespace Pseudoku

/-- Fuel-indexed bit-population count; the word `n` itself always bounds the
recursion depth, see `popCount`. -/
def popCountAux : Nat → Nat → Nat
  | 0, _ => 0
  | fuel+1, n => if n = 0 then 0 else n % 2 + popCountAux fuel (n / 2)

/-- Number of set bits of the binary representation (the `Count()` of a
bitset word). -/
def popCount (n : Nat) : Nat := popCountAux n n

/-- Fuel-indexed lowest-set-bit position, see `lowBit`. -/
def lowBitAux : Nat → Nat → Nat
  | 0, _ => 0
  | fuel+1, n => if n = 0 then 0 else if n % 2 = 1 then 0 else lowBitAux fuel (n / 2) + 1

/-- Position of the lowest set bit (0 for the zero word); agrees with the
position of the unique set bit on singleton words, which is the only use
`Index()` has in the claims. -/
def lowBit (n : Nat) : Nat := lowBitAux n n

/-- Modelled from the spec: the `ValueSet` class (its `valueset.h` /
implementation file is not among the sources; only its uses are).  Per the
spec's data model: "A bitset of width up to N (≤ 64) … Invariants: bits
with index ≥ max are always zero; complement respects the 1…max universe."
`maxVal` is the width of the universe, `bits` the word. -/
structure ValueSet where
  maxVal : Nat
  bits : Nat
deriving DecidableEq

namespace ValueSet

/-- All-bits-of-the-universe word for width `m`. -/
def maskOf (m : Nat) : Nat := 2 ^ m - 1

/-- `Init(max)`: the board constructor first calls `Init` and then takes a
complement to get the full universe, so `Init` yields the empty set. -/
def Init (m : Nat) : ValueSet := ⟨m, 0⟩

/-- `ValueSet(maxVal, bits)` with a single value `v` set, as built by the
board constructor: `ValueSet(maxVal, 1 << (value-1))`. -/
def ofValue (m v : Nat) : ValueSet := ⟨m, 2 ^ (v - 1)⟩

/-- `Count()`: number of set bits. -/
def Count (a : ValueSet) : Nat := popCount a.bits

/-- `Fixed()`: exactly one bit set. -/
def Fixed (a : ValueSet) : Bool := a.Count == 1

/-- `Empty()`: no bit set. -/
def Empty (a : ValueSet) : Bool := a.bits == 0

/-- `Index()`: the position of the single set bit of a fixed set. -/
def Index (a : ValueSet) : Nat := lowBit a.bits

/-- `operator+`: union. -/
def add (a b : ValueSet) : ValueSet := ⟨a.maxVal, a.bits ||| b.bits⟩

/-- `operator-`: difference (`bits & ~other.bits`; `x &&& (x ^^^ (x &&& y))`
is exactly `x AND NOT y` on natural-number words). -/
def sub (a b : ValueSet) : ValueSet := ⟨a.maxVal, a.bits ^^^ (a.bits &&& b.bits)⟩

/-- `operator^`: intersection.  The spec's data-model section lists a
symmetric difference among the essential operations, but at every use site
of `^` in the sources (Rule-1's `cell ^ fixedCellsConstraint`) the engine
is only correct — and the spec's own Rule-1 description `c ∧ ¬F` and all
its behavioural scenarios only hold — if `^` denotes intersection, so the
missing implementation is modelled as bitwise AND. -/
def inter (a b : ValueSet) : ValueSet := ⟨a.maxVal, a.bits &&& b.bits⟩

/-- `operator~`: complement within the 1…max universe (`~bits & mask`). -/
def compl (a : ValueSet) : ValueSet :=
  ⟨a.maxVal, maskOf a.maxVal ^^^ (maskOf a.maxVal &&& a.bits)⟩

/-- Set-inclusion of the underlying words. -/
def Subset (a b : ValueSet) : Prop := a.bits &&& b.bits = a.bits

instance : DecidablePred fun p : ValueSet × ValueSet => Subset p.1 p.2 :=
  fun _ => by unfold Subset; infer_instance

instance (a b : ValueSet) : Decidable (Subset a b) := by
  unfold Subset; infer_instance

end ValueSet

/-- The Sudoku board: `order` k, an array of `numCells` `ValueSet`s, and the
two status counters (`board.h`).  `numUnits`/`numCells` are stored fields in
C++ but always equal `order²`/`order⁴`, so they are derived here.

The C cell array `ValueSet *cells` is modelled as a single natural number
holding the `numCells` bit-words of width `numUnits` side by side (cell `i`
occupies bits `numUnits*i … numUnits*(i+1)-1`); every stored cell carries
the spec invariant "bits with index ≥ max are always zero", which the
packing preserves by masking.  `GetCell` / `SetCellDirect` are field
extraction and field replacement; the only facts the proofs use about them
are the array laws `getCell_setCellDirect_self` / `getCell_setCellDirect_ne`. -/
structure Board where
  order : Nat
  cells : Nat
  numFixedCells : Nat
  numInfeasible : Nat
deriving DecidableEq

instance : Inhabited Board := ⟨⟨0, 0, 0, 0⟩⟩

namespace Board

def numUnits (b : Board) : Nat := b.order * b.order

def numCells (b : Board) : Nat := b.numUnits * b.numUnits

/-- `CellCount()`. -/
def CellCount (b : Board) : Nat := b.numCells

/-- `GetNumUnits()`. -/
def GetNumUnits (b : Board) : Nat := b.numUnits

/-- `FixedCellCount()`. -/
def FixedCellCount (b : Board) : Nat := b.numFixedCells

/-- `InfeasibleCellCount()`. -/
def InfeasibleCellCount (b : Board) : Nat := b.numInfeasible

/-- `GetCell(i)`: extract the `i`-th cell's word. -/
def GetCell (b : Board) (i : Nat) : ValueSet :=
  ⟨b.numUnits, (b.cells >>> (b.numUnits * i)) &&& ValueSet.maskOf b.numUnits⟩

/-- `RowCell(iRow, iCell) = iRow * numUnits + iCell`. -/
def RowCell (b : Board) (iRow iCell : Nat) : Nat := iRow * b.numUnits + iCell

/-- `ColCell(iCol, iCell) = iCell * numUnits + iCol`. -/
def ColCell (b : Board) (iCol iCell : Nat) : Nat := iCell * b.numUnits + iCol

/-- `BoxCell(iBox, iCell)`: top corner plus in-box offset. -/
def BoxCell (b : Board) (iBox iCell : Nat) : Nat :=
  (iBox % b.order) * b.order + (iBox / b.order) * (b.order * b.order * b.order) +
    iCell % b.order + (iCell / b.order) * (b.order * b.order)

/-- `RowForCell(i) = i / numUnits`. -/
def RowForCell (b : Board) (i : Nat) : Nat := i / b.numUnits

/-- `ColForCell(i) = i % numUnits`. -/
def ColForCell (b : Board) (i : Nat) : Nat := i % b.numUnits

/-- `BoxForCell(i) = order*(i / order³) + (i % order²) / order`. -/
def BoxForCell (b : Board) (i : Nat) : Nat :=
  b.order * (i / (b.order * b.order * b.order)) + (i % (b.order * b.order)) / b.order

/-- `SetCellDirect(i, c)`: overwrite a cell without touching the counters
(clear the field by xor-ing its current word out, then or the new word in). -/
def SetCellDirect (b : Board) (i : Nat) (c : ValueSet) : Board :=
  { b with cells :=
      (b.cells ^^^ ((b.GetCell i).bits <<< (b.numUnits * i))) |||
        ((c.bits &&& ValueSet.maskOf b.numUnits) <<< (b.numUnits * i)) }

/-- `IncrementFixedCells()`. -/
def IncrementFixedCells (b : Board) : Board :=
  { b with numFixedCells := b.numFixedCells + 1 }

/-- `IncrementInfeasible()`. -/
def IncrementInfeasible (b : Board) : Board :=
  { b with numInfeasible := b.numInfeasible + 1 }

end Board

/-- The accumulation loop of `Rule1_Elimination`: one pass over
`j < numUnits` collecting the fixed values of the box, column and row peers
(excluding the cell itself) into three accumulators `(box, col, row)`. -/
def collectFixed (b : Board) (i : Nat) : ValueSet × ValueSet × ValueSet :=
  (List.range b.numUnits).foldl
    (fun acc j =>
      let k1 := b.BoxCell (b.BoxForCell i) j
      let acc1 := if k1 != i && (b.GetCell k1).Fixed then
          (acc.1.add (b.GetCell k1), acc.2.1, acc.2.2) else acc
      let k2 := b.ColCell (b.ColForCell i) j
      let acc2 := if k2 != i && (b.GetCell k2).Fixed then
          (acc1.1, acc1.2.1.add (b.GetCell k2), acc1.2.2) else acc1
      let k3 := b.RowCell (b.RowForCell i) j
      if k3 != i && (b.GetCell k3).Fixed then
          (acc2.1, acc2.2.1, acc2.2.2.add (b.GetCell k3)) else acc2)
    (ValueSet.Init b.GetNumUnits, ValueSet.Init b.GetNumUnits, ValueSet.Init b.GetNumUnits)

/-- The accumulation loop of `Rule2_HiddenSingle`: one pass over
`j < numUnits` collecting all candidate values of the box, column and row
peers (excluding the cell itself) into `(box, col, row)`. -/
def collectAll (b : Board) (i : Nat) : ValueSet × ValueSet × ValueSet :=
  (List.range b.numUnits).foldl
    (fun acc j =>
      let k1 := b.BoxCell (b.BoxForCell i) j
      let acc1 := if k1 != i then
          (acc.1.add (b.GetCell k1), acc.2.1, acc.2.2) else acc
      let k2 := b.ColCell (b.ColForCell i) j
      let acc2 := if k2 != i then
          (acc1.1, acc1.2.1.add (b.GetCell k2), acc1.2.2) else acc1
      let k3 := b.RowCell (b.RowForCell i) j
      if k3 != i then
          (acc2.1, acc2.2.1, acc2.2.2.add (b.GetCell k3)) else acc2)
    (ValueSet.Init b.GetNumUnits, ValueSet.Init b.GetNumUnits, ValueSet.Init b.GetNumUnits)

mutual

/-- `SetCellAndPropagate(board, cellIndex, value)`: skip if already fixed,
otherwise overwrite the cell, increment `numFixedCells`, and propagate to
every box, column and row peer (`constraintpropagation.cpp:272-311`). -/
def SetCellAndPropagate : Nat → Board → Nat → ValueSet → Board
  | 0, b, _, _ => b
  | fuel+1, b, i, v =>
    if (b.GetCell i).Fixed then b
    else
      let b1 := (b.SetCellDirect i v).IncrementFixedCells
      (List.range b.GetNumUnits).foldl
        (fun bb j =>
          let k1 := b.BoxCell (b.BoxForCell i) j
          let bb1 := if k1 != i then PropagateConstraints fuel bb k1 else bb
          let k2 := b.ColCell (b.ColForCell i) j
          let bb2 := if k2 != i then PropagateConstraints fuel bb1 k2 else bb1
          let k3 := b.RowCell (b.RowForCell i) j
          if k3 != i then PropagateConstraints fuel bb2 k3 else bb2)
        b1
termination_by structural fuel => fuel

/-- `PropagateConstraints(board, cellIndex)`: skip empty/fixed cells, apply
Rule 1, if it did not fix the cell apply Rule 2, then count a newly empty
cell as infeasible (`constraintpropagation.cpp:241-259`). -/
def PropagateConstraints : Nat → Board → Nat → Board
  | 0, b, _ => b
  | fuel+1, b, i =>
    let cell := b.GetCell i
    if cell.Empty || cell.Fixed then b
    else
      let r1 := Rule1_Elimination fuel b i
      if r1.2 then r1.1
      else
        let r2 := Rule2_HiddenSingle fuel r1.1 i
        if (r2.1.GetCell i).Empty then r2.1.IncrementInfeasible else r2.1

/-- `Rule1_Elimination(board, cellIndex)`: collect the fixed values of the
row, column and box peers, complement them, and either fix the cell (when
the complement is a singleton) or intersect the cell with the complement
(`constraintpropagation.cpp:72-143`).  Returns the updated board and the
C++ return value. -/
def Rule1_Elimination : Nat → Board → Nat → Board × Bool
  | 0, b, _ => (b, false)
  | fuel+1, b, i =>
    let cell := b.GetCell i
    if cell.Empty || cell.Fixed then (b, false)
    else
      let acc := collectFixed b i
      let fixedCellsConstraint := ((acc.2.2.add acc.2.1).add acc.1).compl
      if fixedCellsConstraint.Fixed then
        (SetCellAndPropagate fuel b i fixedCellsConstraint, true)
      else
        (b.SetCellDirect i (cell.inter fixedCellsConstraint), false)

/-- `Rule2_HiddenSingle(board, cellIndex)`: collect all candidates of the
row, column and box peers; if the cell minus one of those unions is a
singleton, fix it (`constraintpropagation.cpp:154-230`). -/
def Rule2_HiddenSingle : Nat → Board → Nat → Board × Bool
  | 0, b, _ => (b, false)
  | fuel+1, b, i =>
    let c := b.GetCell i
    if c.Empty || c.Fixed then (b, false)
    else
      let acc := collectAll b i
      if (c.sub acc.2.2).Fixed then
        (SetCellAndPropagate fuel b i (c.sub acc.2.2), true)
      else if (c.sub acc.2.1).Fixed then
        (SetCellAndPropagate fuel b i (c.sub acc.2.1), true)
      else if (c.sub acc.1).Fixed then
        (SetCellAndPropagate fuel b i (c.sub acc.1), true)
      else
        (b, false)

end

/-- The `switch (puzzleString.length())` of the board constructor. -/
def orderOfLength : Nat → Nat
  | 81 => 3
  | 256 => 4
  | 625 => 5
  | 1296 => 6
  | 2401 => 7
  | 4096 => 8
  | _ => 0

/-- Character-to-value decoding of the board constructor (`board.cpp:95-109`). -/
def charValue (order : Nat) (c : Char) : Nat :=
  if order = 3 then c.toNat - '0'.toNat
  else if order = 4 then
    if '0'.toNat ≤ c.toNat && c.toNat ≤ '9'.toNat then 1 + (c.toNat - '0'.toNat)
    else 11 + (c.toNat - 'a'.toNat)
  else 1 + (c.toNat - 'a'.toNat)

/-- `Board::Board(const string&)`: determine the order from the length,
initialise every cell to the full universe (`Init` then complement), then
set each non-`.` cell with `SetCellAndPropagate` in index order
(`board.cpp:38-116`).  `fuel` bounds the CP recursion depth. -/
def mkBoard (fuel : Nat) (s : List Char) : Board :=
  let order := orderOfLength s.length
  let numUnits := order * order
  let numCells := numUnits * numUnits
  let b0 : Board :=
    { order := order
      cells := 0
      numFixedCells := 0
      numInfeasible := 0 }
  let b1 := (List.range numCells).foldl (fun b i => b.SetCellDirect i (b.GetCell i).compl) b0
  (List.range numCells).foldl
    (fun b i =>
      let c := s.getD i '.'
      if c = '.' then b
      else SetCellAndPropagate fuel b i (ValueSet.ofValue numUnits (charValue order c)))
    b1

/-- `Board::CheckSolution(other)` (`board.cpp:336-378`): completeness of
`other`, unit counts, and consistency with this board's currently fixed
cells. -/
def CheckSolution (p other : Board) : Bool :=
  if other.CellCount != p.CellCount then false
  else
    let isSolution :=
      (List.range other.CellCount).all (fun i => (other.GetCell i).Fixed) &&
      (List.range p.numUnits).all (fun i =>
        let row := (List.range p.numUnits).foldl
          (fun a j => a.add (other.GetCell (p.RowCell i j))) (ValueSet.Init p.numUnits)
        let col := (List.range p.numUnits).foldl
          (fun a j => a.add (other.GetCell (p.ColCell i j))) (ValueSet.Init p.numUnits)
        let box := (List.range p.numUnits).foldl
          (fun a j => a.add (other.GetCell (p.BoxCell i j))) (ValueSet.Init p.numUnits)
        row.Count == p.numUnits && col.Count == p.numUnits && box.Count == p.numUnits)
    let isConsistent :=
      (List.range p.CellCount).all (fun i =>
        !(p.GetCell i).Fixed || ((p.GetCell i).Index == (other.GetCell i).Index))
    isSolution && isConsistent

/-- Minimal model of the IEEE `float` values arising in the colony solve
loop: exact finite rationals plus `+∞` (the IEEE result of dividing a
positive finite float by `+0`).  Only the operations the loop performs are
defined. -/
inductive Flt where
  | fin (q : ℚ)
  | inf
deriving DecidableEq

namespace Flt

/-- `a < b` on the modelled floats (`+∞` exceeds every finite value). -/
def lt : Flt → Flt → Bool
  | fin a, fin b => a < b
  | fin _, inf => true
  | inf, _ => false

/-- Multiplication by a finite factor: exact on finite values;
`+∞ * c = +∞`, which is the IEEE product for `c > 0` — the only factors the
loop produces are `1 - bestEvap` with `bestEvap < 1`, as the theorems
assume. -/
def mulFin : Flt → ℚ → Flt
  | fin q, c => fin (q * c)
  | inf, _ => inf

/-- `float` division `a / b` for positive `a`: the IEEE quotient is `+∞`
when `b = +0` and exact otherwise (every use divides the positive
`numCells` by an integer-valued difference). -/
def div (a b : ℚ) : Flt := if b = 0 then inf else fin (a / b)

end Flt

/-- `PherAdd(numCellsFixed) = numCells / (float)(numCells - numCellsFixed)`
(`sudokuantsystem.cpp:214-217`; `SubColony::PherAdd` has the identical
body).  The subtraction is between C `int`s, hence exact in ℚ. -/
def PherAdd (numCells score : Nat) : Flt :=
  Flt.div (numCells : ℚ) ((numCells : ℚ) - (score : ℚ))

/-- The outcome of one ant's construction in one iteration: its
`NumCellsFilled()` and its working board (`GetSolution()`).  The stochastic
construction itself (RNG draws, pheromone reads) is not modelled: the
claims about the solve loop treat the ants' outcomes as the iteration's
input. -/
structure AntResult where
  filled : Nat
  sol : Board
deriving DecidableEq

instance : Inhabited AntResult := ⟨⟨0, ⟨0, 0, 0, 0⟩⟩⟩

/-- The state of `SudokuAntSystem::Solve` that the claims range over:
`numCells`, `bestEvap`, `bestPher`, `bestSol` and the `solved` flag.  The
pheromone matrix evolves alongside (`UpdatePheromone`, the ants' local
updates) but never feeds back into these fields within an iteration — it
only biases the ants, whose outcomes are this model's inputs — so it is not
carried here. -/
structure ColonyState where
  numCells : Nat
  bestEvap : ℚ
  bestPher : Flt
  bestSol : Board
  solved : Bool

/-- The iteration-best scan of `Solve` (`sudokuantsystem.cpp:111-120`):
running maximum of `NumCellsFilled()` with strict improvement, starting
from `bestVal = 0, iBest = 0`, so ties keep the first maximiser. -/
def findBestGo (bestVal iBest idx : Nat) : List AntResult → Nat × Nat
  | [] => (bestVal, iBest)
  | a :: rest =>
    if bestVal < a.filled then findBestGo a.filled idx (idx + 1) rest
    else findBestGo bestVal iBest (idx + 1) rest

/-- `(bestVal, iBest)` over the whole ant list. -/
def findBest (ants : List AntResult) : Nat × Nat := findBestGo 0 0 0 ants

/-- One iteration of `SudokuAntSystem::Solve` after the construction phase
(`sudokuantsystem.cpp:110-153`): find the iteration-best ant, compute the
unguarded reinforcement `pherToAdd = PherAdd(bestVal)`, replace
`bestSol`/`bestPher` and set `solved` when `pherToAdd > bestPher` (and the
iteration best filled every cell), then apply the global-update /
`bestPher`-decay tail (the matrix part of `UpdatePheromone` lives outside
this state). -/
def SolveIter (st : ColonyState) (ants : List AntResult) : ColonyState :=
  let best := findBest ants
  let pherToAdd := PherAdd st.numCells best.1
  let st1 :=
    if st.bestPher.lt pherToAdd then
      { st with
        bestSol := (ants.getD best.2 default).sol
        bestPher := pherToAdd
        solved := if best.1 == st.numCells then true else st.solved }
    else st
  { st1 with bestPher := st1.bestPher.mulFin (1 - st.bestEvap) }

/-- The `while (!solved)` loop of `Solve`: one entry of the list per
executed iteration; the loop returns `solved` when the 100-iteration
timeout poll breaks out (modelled by the list ending), and exits during the
iteration that sets `solved`. -/
def SolveLoop : ColonyState → List (List AntResult) → Bool
  | st, [] => st.solved
  | st, it :: rest =>
    let st1 := SolveIter st it
    if st1.solved then true else SolveLoop st1 rest

/-- The sub-colony state (`parallelsudokuantsystem.h`) that the parallel
claims range over.  The pheromone matrix is the index function
`pher i j = τ[i][j]`, with the float entries modelled as exact rationals
(no claim about this matrix depends on rounding); the ant population, RNG
and the two reusable scratch arrays are not part of any claim's footprint —
the scratch arrays are rebuilt per cell inside
`UpdatePheromoneWithCommunication`, matching their `std::fill` reset
there. -/
structure SubColony where
  numAnts : Nat
  q0 : ℚ
  rho : ℚ
  pher0 : ℚ
  bestEvap : ℚ
  numCells : Nat
  numUnits : Nat
  pher : Nat → Nat → ℚ
  iterationBest : Board
  bestSol : Board
  receivedIterationBest : Board
  receivedBestSol : Board
  iterationBestScore : Nat
  bestSolScore : Nat
  receivedIterationBestScore : Nat
  receivedBestSolScore : Nat
  bestPher : ℚ
  currentIteration : Nat

instance : Inhabited SubColony :=
  ⟨⟨0, 0, 0, 0, 0, 0, 0, fun _ _ => 0, ⟨0, 0, 0, 0⟩, ⟨0, 0, 0, 0⟩, ⟨0, 0, 0, 0⟩, ⟨0, 0, 0, 0⟩,
    0, 0, 0, 0, 0, 0⟩⟩

namespace SubColony

/-- `SubColony::PherAdd` (`parallelsudokuantsystem.cpp:125-128`) on the
exact-rational model of the communication update's floats (`PherAdd` on
`Flt` models the same formula where the `+∞` case matters). -/
def PherAddQ (c : SubColony) (score : Nat) : ℚ :=
  (c.numCells : ℚ) / ((c.numCells : ℚ) - (score : ℚ))

/-- One accumulation step of the scratch-array pass: if the guard holds,
accumulate `delta` on the scratch entry for `digit` and mark it. -/
def commScratchStep (s : (Nat → ℚ) × (Nat → Bool)) (guard : Bool) (digit : Nat) (delta : ℚ) :
    (Nat → ℚ) × (Nat → Bool) :=
  if guard then (Function.update s.1 digit (s.1 digit + delta), Function.update s.2 digit true)
  else s

/-- The per-cell scratch-array pass of `UpdatePheromoneWithCommunication`
(`parallelsudokuantsystem.cpp:177-205`): clear `contributions` and
`hasContribution`, then let each of the three sources with positive score
and a fixed digit at cell `i` accumulate its deposit on that digit. -/
def commCellScratch (c : SubColony) (pherValue1 pherValue2 pherValue3 : ℚ) (i : Nat) :
    (Nat → ℚ) × (Nat → Bool) :=
  let z : (Nat → ℚ) × (Nat → Bool) := (fun _ => 0, fun _ => false)
  let s1 := commScratchStep z
    (0 < c.iterationBestScore && (c.iterationBest.GetCell i).Fixed)
    (c.iterationBest.GetCell i).Index pherValue1
  let s2 := commScratchStep s1
    (0 < c.receivedIterationBestScore && (c.receivedIterationBest.GetCell i).Fixed)
    (c.receivedIterationBest.GetCell i).Index pherValue2
  let s3 := commScratchStep s2
    (0 < c.receivedBestSolScore && (c.receivedBestSol.GetCell i).Fixed)
    (c.receivedBestSol.GetCell i).Index pherValue3
  s3

/-- `SubColony::UpdatePheromoneWithCommunication`
(`parallelsudokuantsystem.cpp:167-219`): compute the three deposit amounts,
then for each cell `i < numCells` clear the scratch arrays, let each source
with positive score and a fixed digit at `i` accumulate its deposit on that
digit, and rewrite `τ[i][j]` only for the digits `j < numUnits` that have a
contribution.  Arrays are index functions; `Function.update` is the array
write. -/
def UpdatePheromoneWithCommunication (c : SubColony) : SubColony :=
  let pherValue1 : ℚ := if 0 < c.iterationBestScore then c.PherAddQ c.iterationBestScore else 0
  let pherValue2 : ℚ :=
    if 0 < c.receivedIterationBestScore then c.PherAddQ c.receivedIterationBestScore else 0
  let pherValue3 : ℚ := if 0 < c.receivedBestSolScore then c.PherAddQ c.receivedBestSolScore else 0
  { c with pher := fun i j =>
      if i < c.numCells then
        let s3 := commCellScratch c pherValue1 pherValue2 pherValue3 i
        if j < c.numUnits && s3.2 j then
          c.pher i j * (1 - c.rho) + c.rho * s3.1 j
        else c.pher i j
      else c.pher i j }

/-- `SubColony::LocalPheromoneUpdate` (`parallelsudokuantsystem.cpp:221-224`;
`SudokuAntSystem::LocalPheromoneUpdate` at `sudokuantsystem.cpp:196-199` has
the identical body): `τ[i][j] ← τ[i][j]·0.9 + τ₀·0.1`, the ACS mixing
constants taken exactly. -/
def LocalPheromoneUpdate (c : SubColony) (iCell iChoice : Nat) : SubColony :=
  { c with pher := fun i j =>
      if i = iCell ∧ j = iChoice then c.pher i j * (9 / 10) + c.pher0 * (1 / 10)
      else c.pher i j }

/-- `SubColony::ReceiveIterationBest` (`parallelsudokuantsystem.cpp:279-286`):
copy the delivered board into the ring-received slot and record its
`FixedCellCount()`. -/
def ReceiveIterationBest (c : SubColony) (solution : Board) : SubColony :=
  { c with
    receivedIterationBest := solution
    receivedIterationBestScore := solution.FixedCellCount }

/-- `SubColony::ReceiveBestSol` (`parallelsudokuantsystem.cpp:288-295`). -/
def ReceiveBestSol (c : SubColony) (solution : Board) : SubColony :=
  { c with
    receivedBestSol := solution
    receivedBestSolScore := solution.FixedCellCount }

end SubColony

/-- `ParallelSudokuAntSystem::CommunicateRingTopology`
(`parallelsudokuantsystem.cpp:347-363`): snapshot every colony's
`iterationBest`, then deliver snapshot `i` to colony `(i+1) % n`. -/
def CommunicateRingTopology (cs : List SubColony) : List SubColony :=
  let iterationBests := cs.map (fun c => c.iterationBest)
  (List.range cs.length).foldl
    (fun acc i =>
      let nextId := (i + 1) % cs.length
      acc.set nextId ((acc.getD nextId default).ReceiveIterationBest (iterationBests.getD i default)))
    cs

/-- `ParallelSudokuAntSystem::CommunicateRandomTopology`
(`parallelsudokuantsystem.cpp:379-398`): snapshot every colony's `bestSol`,
then for each position `i` deliver the snapshot of colony
`matchArray[(i+n-1) % n]` to colony `matchArray[i]`. -/
def CommunicateRandomTopology (cs : List SubColony) (matchArray : List Nat) : List SubColony :=
  let bestSols := cs.map (fun c => c.bestSol)
  (List.range cs.length).foldl
    (fun acc i =>
      let colonyId := matchArray.getD i 0
      let fromPos := (i + cs.length - 1) % cs.length
      let fromColonyId := matchArray.getD fromPos 0
      acc.set colonyId ((acc.getD colonyId default).ReceiveBestSol (bestSols.getD fromColonyId default)))
    cs

/-- The communication schedule of `ParallelSudokuAntSystem::SubColonyWorker`
(`parallelsudokuantsystem.cpp:611-627`): no communication with a single
sub-colony; otherwise multiples of 100 while `iter < 200` and multiples of
10 from 200 on. -/
def ShouldCommunicate (numSubColonies iter : Nat) : Bool :=
  if 1 < numSubColonies then
    if iter < 200 then iter % 100 == 0 else iter % 10 == 0
  else false

/-- Which pheromone update a worker iteration performs
(`parallelsudokuantsystem.cpp:629-656`): the three-source communication
update on communication iterations, the Algorithm-0 global update plus the
`bestPher` decay on all others. -/
inductive PheromonePhase where
  | communication
  | algorithm0
deriving DecidableEq

/-- The phase selection of the worker loop. -/
def workerPheromonePhase (numSubColonies iter : Nat) : PheromonePhase :=
  if ShouldCommunicate numSubColonies iter then PheromonePhase.communication
  else PheromonePhase.algorithm0

/-- The schedule predicate as the claim words it. -/
def scheduleSpec (iter : Nat) : Prop :=
  (iter ≤ 200 ∧ iter % 100 = 0) ∨ (200 < iter ∧ iter % 10 = 0)

instance (iter : Nat) : Decidable (scheduleSpec iter) := by
  unfold scheduleSpec; infer_instance

set_option maxRecDepth 4000 in
/-- C6: with more than one sub-colony, a worker iteration communicates
exactly on multiples of 100 for `iter ≤ 200` and exactly on multiples of 10
for `iter > 200`; in particular iterations 100 and 200 communicate,
201–209 do not, 210 does, and every non-communication iteration takes the
Algorithm-0 global-update-and-decay path. -/
theorem claim_C6_communication_schedule (n iter : Nat) :
    (ShouldCommunicate n iter = true ↔ 1 < n ∧ scheduleSpec iter) ∧
    (workerPheromonePhase n iter = PheromonePhase.algorithm0 ↔
      ¬(1 < n ∧ scheduleSpec iter)) ∧
    ShouldCommunicate 4 100 = true ∧ ShouldCommunicate 4 200 = true ∧
    (∀ k < 210, 200 < k → ShouldCommunicate 4 k = false) ∧
    ShouldCommunicate 4 210 = true := by
  have hiff : ShouldCommunicate n iter = true ↔ 1 < n ∧ scheduleSpec iter := by
    unfold ShouldCommunicate scheduleSpec
    by_cases hn : 1 < n
    · simp only [if_pos hn, true_and]
      by_cases h : iter < 200
      · simp only [if_pos h, beq_iff_eq]
        omega
      · simp only [if_neg h, beq_iff_eq]
        omega
    · simp [hn]
  refine ⟨hiff, ?_, by decide, by decide, by decide, by decide⟩
  unfold workerPheromonePhase
  rcases hc : ShouldCommunicate n iter with _ | _
  · simp only [Bool.false_eq_true, if_false]
    simp only [hc, Bool.false_eq_true, false_iff] at hiff
    simpa using hiff
  · simp only [if_true]
    simp only [hc, true_iff] at hiff
    constructor
    · intro h; cases h
    · intro h; exact absurd hiff h

/-- C9: the local pheromone update rewrites exactly the entry `τ[i][j]` to
`0.9·τ[i][j] + 0.1·τ₀`, leaves every other entry unchanged, and the new
value is strictly closer to `τ₀` unless the old value already equals
`τ₀` (the distance contracts by the factor 9/10). -/
theorem claim_C9_local_update_contracts (c : SubColony) (iCell iChoice : Nat) :
    ((c.LocalPheromoneUpdate iCell iChoice).pher iCell iChoice =
      c.pher iCell iChoice * (9 / 10) + c.pher0 * (1 / 10)) ∧
    (∀ i j, ¬(i = iCell ∧ j = iChoice) →
      (c.LocalPheromoneUpdate iCell iChoice).pher i j = c.pher i j) ∧
    (|(c.LocalPheromoneUpdate iCell iChoice).pher iCell iChoice - c.pher0| =
      (9 / 10) * |c.pher iCell iChoice - c.pher0|) ∧
    (c.pher iCell iChoice ≠ c.pher0 →
      |(c.LocalPheromoneUpdate iCell iChoice).pher iCell iChoice - c.pher0| <
        |c.pher iCell iChoice - c.pher0|) := by
  have hv : (c.LocalPheromoneUpdate iCell iChoice).pher iCell iChoice =
      c.pher iCell iChoice * (9 / 10) + c.pher0 * (1 / 10) := by
    simp [SubColony.LocalPheromoneUpdate]
  have habs : |(c.LocalPheromoneUpdate iCell iChoice).pher iCell iChoice - c.pher0| =
      (9 / 10) * |c.pher iCell iChoice - c.pher0| := by
    rw [hv]
    have h1 : c.pher iCell iChoice * (9 / 10) + c.pher0 * (1 / 10) - c.pher0 =
        (9 / 10) * (c.pher iCell iChoice - c.pher0) := by ring
    rw [h1, abs_mul]
    norm_num
  refine ⟨hv, ?_, habs, ?_⟩
  · intro i j hij
    simp [SubColony.LocalPheromoneUpdate, hij]
  · intro hne
    rw [habs]
    have hpos : 0 < |c.pher iCell iChoice - c.pher0| := by
      rw [abs_pos]
      exact sub_ne_zero_of_ne hne
    nlinarith [hpos]

/-- Witness for C9 at a concrete colony: the matrix entry `τ[0][0] = 1`
with `τ₀ = 0` moves to `9/10`, strictly closer to `τ₀`. -/
theorem claim_C9_local_update_contracts_witness :
    let c : SubColony := { (default : SubColony) with pher := fun _ _ => 1, pher0 := 0 }
    (c.pher 0 0 ≠ c.pher0) ∧
    |(c.LocalPheromoneUpdate 0 0).pher 0 0 - c.pher0| < |c.pher 0 0 - c.pher0| := by
  intro c
  refine ⟨by norm_num, ?_⟩
  exact (claim_C9_local_update_contracts c 0 0).2.2.2 (by norm_num)

/-- Value and mark of the scratch pair at a digit `j` after one
accumulation step. -/
theorem commScratchStep_at (s : (Nat → ℚ) × (Nat → Bool)) (guard : Bool) (digit : Nat)
    (delta : ℚ) (j : Nat) :
    ((SubColony.commScratchStep s guard digit delta).1 j =
      if guard = true ∧ digit = j then s.1 j + delta else s.1 j) ∧
    ((SubColony.commScratchStep s guard digit delta).2 j =
      if guard = true ∧ digit = j then true else s.2 j) := by
  unfold SubColony.commScratchStep
  by_cases hg : guard = true
  · by_cases hd : digit = j
    · subst hd
      simp [hg, Function.update]
    · have hd2 : j ≠ digit := fun h => hd h.symm
      constructor <;> simp [hg, hd, hd2, Function.update_apply]
  · constructor <;> simp [hg]

/-- One of the three communication sources, with positive score, holds the
fixed digit `j` at cell `i`. -/
def endorses (score : Nat) (bd : Board) (i j : Nat) : Prop :=
  0 < score ∧ (bd.GetCell i).Fixed = true ∧ (bd.GetCell i).Index = j

instance (score : Nat) (bd : Board) (i j : Nat) : Decidable (endorses score bd i j) := by
  unfold endorses; infer_instance

/-- Contribution and mark of the full scratch pass at digit `j`: the value
is the sum of the deposits of the endorsing sources, the mark is set
exactly when some source endorses. -/
theorem commCellScratch_at (c : SubColony) (pv1 pv2 pv3 : ℚ) (i j : Nat) :
    ((SubColony.commCellScratch c pv1 pv2 pv3 i).1 j =
      (if endorses c.iterationBestScore c.iterationBest i j then pv1 else 0) +
      (if endorses c.receivedIterationBestScore c.receivedIterationBest i j then pv2 else 0) +
      (if endorses c.receivedBestSolScore c.receivedBestSol i j then pv3 else 0)) ∧
    ((SubColony.commCellScratch c pv1 pv2 pv3 i).2 j = true ↔
      (endorses c.iterationBestScore c.iterationBest i j ∨
       endorses c.receivedIterationBestScore c.receivedIterationBest i j ∨
       endorses c.receivedBestSolScore c.receivedBestSol i j)) := by
  have he1 : ((0 < c.iterationBestScore && (c.iterationBest.GetCell i).Fixed) = true ∧
      (c.iterationBest.GetCell i).Index = j) ↔
      endorses c.iterationBestScore c.iterationBest i j := by
    unfold endorses
    simp [Bool.and_eq_true, decide_eq_true_eq, and_assoc]
  have he2 : ((0 < c.receivedIterationBestScore &&
        (c.receivedIterationBest.GetCell i).Fixed) = true ∧
      (c.receivedIterationBest.GetCell i).Index = j) ↔
      endorses c.receivedIterationBestScore c.receivedIterationBest i j := by
    unfold endorses
    simp [Bool.and_eq_true, decide_eq_true_eq, and_assoc]
  have he3 : ((0 < c.receivedBestSolScore && (c.receivedBestSol.GetCell i).Fixed) = true ∧
      (c.receivedBestSol.GetCell i).Index = j) ↔
      endorses c.receivedBestSolScore c.receivedBestSol i j := by
    unfold endorses
    simp [Bool.and_eq_true, decide_eq_true_eq, and_assoc]
  unfold SubColony.commCellScratch
  obtain ⟨a1, b1⟩ := commScratchStep_at ((fun _ => (0 : ℚ)), (fun _ => false))
    (0 < c.iterationBestScore && (c.iterationBest.GetCell i).Fixed)
    (c.iterationBest.GetCell i).Index pv1 j
  obtain ⟨a2, b2⟩ := commScratchStep_at
    (SubColony.commScratchStep ((fun _ => (0 : ℚ)), (fun _ => false))
      (0 < c.iterationBestScore && (c.iterationBest.GetCell i).Fixed)
      (c.iterationBest.GetCell i).Index pv1)
    (0 < c.receivedIterationBestScore && (c.receivedIterationBest.GetCell i).Fixed)
    (c.receivedIterationBest.GetCell i).Index pv2 j
  obtain ⟨a3, b3⟩ := commScratchStep_at
    (SubColony.commScratchStep
      (SubColony.commScratchStep ((fun _ => (0 : ℚ)), (fun _ => false))
        (0 < c.iterationBestScore && (c.iterationBest.GetCell i).Fixed)
        (c.iterationBest.GetCell i).Index pv1)
      (0 < c.receivedIterationBestScore && (c.receivedIterationBest.GetCell i).Fixed)
      (c.receivedIterationBest.GetCell i).Index pv2)
    (0 < c.receivedBestSolScore && (c.receivedBestSol.GetCell i).Fixed)
    (c.receivedBestSol.GetCell i).Index pv3 j
  constructor
  · rw [a3, a2, a1]
    simp only [he1, he2, he3]
    by_cases hE1 : endorses c.iterationBestScore c.iterationBest i j <;>
      by_cases hE2 : endorses c.receivedIterationBestScore c.receivedIterationBest i j <;>
        by_cases hE3 : endorses c.receivedBestSolScore c.receivedBestSol i j <;>
          simp [hE1, hE2, hE3]
  · rw [b3, b2, b1]
    simp only [he1, he2, he3]
    by_cases hE1 : endorses c.iterationBestScore c.iterationBest i j <;>
      by_cases hE2 : endorses c.receivedIterationBestScore c.receivedIterationBest i j <;>
        by_cases hE3 : endorses c.receivedBestSolScore c.receivedBestSol i j <;>
          simp [hE1, hE2, hE3]

/-- C4: the three-source communication update rewrites `τ[i][j]` exactly
for the matrix entries endorsed by at least one source with positive score
(`τ[i][j] ← (1−ρ)·τ[i][j] + ρ·contributions[j]`, where `contributions[j]`
is the sum of the deposits of the endorsing sources), and leaves every
entry with no contribution exactly unchanged — no evaporation outside
endorsed entries. -/
theorem claim_C4_selective_communication_update (c : SubColony) (i j : Nat) :
    (c.UpdatePheromoneWithCommunication).pher i j =
      (if i < c.numCells ∧ j < c.numUnits ∧
          (endorses c.iterationBestScore c.iterationBest i j ∨
           endorses c.receivedIterationBestScore c.receivedIterationBest i j ∨
           endorses c.receivedBestSolScore c.receivedBestSol i j) then
        c.pher i j * (1 - c.rho) + c.rho *
          ((if endorses c.iterationBestScore c.iterationBest i j
              then c.PherAddQ c.iterationBestScore else 0) +
           (if endorses c.receivedIterationBestScore c.receivedIterationBest i j
              then c.PherAddQ c.receivedIterationBestScore else 0) +
           (if endorses c.receivedBestSolScore c.receivedBestSol i j
              then c.PherAddQ c.receivedBestSolScore else 0))
      else c.pher i j) := by
  obtain ⟨ha, hb⟩ := commCellScratch_at c
    (if 0 < c.iterationBestScore then c.PherAddQ c.iterationBestScore else 0)
    (if 0 < c.receivedIterationBestScore then c.PherAddQ c.receivedIterationBestScore else 0)
    (if 0 < c.receivedBestSolScore then c.PherAddQ c.receivedBestSolScore else 0) i j
  have hv1 : (if endorses c.iterationBestScore c.iterationBest i j
        then (if 0 < c.iterationBestScore then c.PherAddQ c.iterationBestScore else 0) else 0) =
      (if endorses c.iterationBestScore c.iterationBest i j
        then c.PherAddQ c.iterationBestScore else 0) := by
    by_cases hE : endorses c.iterationBestScore c.iterationBest i j
    · simp [hE, hE.1]
    · simp [hE]
  have hv2 : (if endorses c.receivedIterationBestScore c.receivedIterationBest i j
        then (if 0 < c.receivedIterationBestScore
          then c.PherAddQ c.receivedIterationBestScore else 0) else 0) =
      (if endorses c.receivedIterationBestScore c.receivedIterationBest i j
        then c.PherAddQ c.receivedIterationBestScore else 0) := by
    by_cases hE : endorses c.receivedIterationBestScore c.receivedIterationBest i j
    · simp [hE, hE.1]
    · simp [hE]
  have hv3 : (if endorses c.receivedBestSolScore c.receivedBestSol i j
        then (if 0 < c.receivedBestSolScore then c.PherAddQ c.receivedBestSolScore else 0)
        else 0) =
      (if endorses c.receivedBestSolScore c.receivedBestSol i j
        then c.PherAddQ c.receivedBestSolScore else 0) := by
    by_cases hE : endorses c.receivedBestSolScore c.receivedBestSol i j
    · simp [hE, hE.1]
    · simp [hE]
  show (if i < c.numCells then _ else c.pher i j) = _
  by_cases hi : i < c.numCells
  · rw [if_pos hi]
    by_cases hj : j < c.numUnits
    · by_cases hE : endorses c.iterationBestScore c.iterationBest i j ∨
          endorses c.receivedIterationBestScore c.receivedIterationBest i j ∨
          endorses c.receivedBestSolScore c.receivedBestSol i j
      · have hb2 : (SubColony.commCellScratch c
            (if 0 < c.iterationBestScore then c.PherAddQ c.iterationBestScore else 0)
            (if 0 < c.receivedIterationBestScore
              then c.PherAddQ c.receivedIterationBestScore else 0)
            (if 0 < c.receivedBestSolScore then c.PherAddQ c.receivedBestSolScore else 0) i).2 j =
            true := hb.mpr hE
        have hjb : (decide (j < c.numUnits)) = true := by simp [hj]
        simp only [hb2, hjb, Bool.and_self, if_true, ha, hv1, hv2, hv3]
        simp [hi, hj, hE]
      · have hb2 : (SubColony.commCellScratch c
            (if 0 < c.iterationBestScore then c.PherAddQ c.iterationBestScore else 0)
            (if 0 < c.receivedIterationBestScore
              then c.PherAddQ c.receivedIterationBestScore else 0)
            (if 0 < c.receivedBestSolScore then c.PherAddQ c.receivedBestSolScore else 0) i).2 j =
            false := by
          rcases h2 : (SubColony.commCellScratch c _ _ _ i).2 j with _ | _
          · rfl
          · exact absurd (hb.mp h2) hE
        simp only [hb2, Bool.and_false, Bool.false_eq_true, if_false]
        simp [hE]
    · have hjb : (decide (j < c.numUnits)) = false := by simp [hj]
      simp only [hjb, Bool.false_and, Bool.false_eq_true, if_false]
      simp [hj]
  · rw [if_neg hi]
    simp [hi]

/-- The accumulator is a lower bound on the scan's resulting best value. -/
theorem findBestGo_acc_le (l : List AntResult) :
    ∀ bv bi idx, bv ≤ (findBestGo bv bi idx l).1 := by
  induction l with
  | nil => intro bv bi idx; exact Nat.le_refl bv
  | cons a rest ih =>
    intro bv bi idx
    unfold findBestGo
    by_cases h : bv < a.filled
    · simpa [h] using Nat.le_trans (Nat.le_of_lt h) (ih a.filled idx (idx + 1))
    · simpa [h] using ih bv bi (idx + 1)

/-- Every scanned ant's score is bounded by the scan's resulting best value. -/
theorem findBestGo_mem_le (l : List AntResult) :
    ∀ bv bi idx a, a ∈ l → a.filled ≤ (findBestGo bv bi idx l).1 := by
  induction l with
  | nil => intro _ _ _ _ h; cases h
  | cons b rest ih =>
    intro bv bi idx a ha
    unfold findBestGo
    rcases List.mem_cons.mp ha with rfl | hmem
    · by_cases h : bv < a.filled
      · simpa [h] using findBestGo_acc_le rest a.filled idx (idx + 1)
      · have hle : a.filled ≤ bv := Nat.le_of_not_lt h
        simpa [h] using Nat.le_trans hle (findBestGo_acc_le rest bv bi (idx + 1))
    · by_cases h : bv < b.filled
      · simpa [h] using ih b.filled idx (idx + 1) a hmem
      · simpa [h] using ih bv bi (idx + 1) a hmem

/-- The scan's best value is bounded by any bound on the accumulator and the
scores. -/
theorem findBestGo_le_bound (l : List AntResult) :
    ∀ bv bi idx n, bv ≤ n → (∀ a ∈ l, a.filled ≤ n) → (findBestGo bv bi idx l).1 ≤ n := by
  induction l with
  | nil => intro bv bi idx n hbv _; exact hbv
  | cons a rest ih =>
    intro bv bi idx n hbv hall
    unfold findBestGo
    by_cases h : bv < a.filled
    · simpa [h] using
        ih a.filled idx (idx + 1) n (hall a (List.mem_cons_self a rest))
          (fun x hx => hall x (List.mem_cons_of_mem a hx))
    · simpa [h] using ih bv bi (idx + 1) n hbv (fun x hx => hall x (List.mem_cons_of_mem a hx))

/-- Either the scan never improved on the accumulator, or its reported index
points (relative to `idx`) at an ant attaining the reported best value. -/
theorem findBestGo_attain (l : List AntResult) :
    ∀ bv bi idx,
      ((findBestGo bv bi idx l).1 = bv ∧ (findBestGo bv bi idx l).2 = bi) ∨
      ∃ k < l.length, (l.getD k default).filled = (findBestGo bv bi idx l).1 ∧
        (findBestGo bv bi idx l).2 = idx + k := by
  induction l with
  | nil => intro bv bi idx; exact Or.inl ⟨rfl, rfl⟩
  | cons a rest ih =>
    intro bv bi idx
    unfold findBestGo
    by_cases h : bv < a.filled
    · simp only [if_pos h]
      rcases ih a.filled idx (idx + 1) with ⟨h1, h2⟩ | ⟨k, hk, h1, h2⟩
      · refine Or.inr ⟨0, by simp, ?_, by simpa using h2⟩
        simpa using h1.symm
      · exact Or.inr ⟨k + 1, by simpa using hk, by simpa using h1, by omega⟩
    · simp only [if_neg h]
      rcases ih bv bi (idx + 1) with ⟨h1, h2⟩ | ⟨k, hk, h1, h2⟩
      · exact Or.inl ⟨h1, h2⟩
      · exact Or.inr ⟨k + 1, by simpa using hk, by simpa using h1, by omega⟩

/-- An in-range `getD` is a member of the list. -/
theorem getD_mem_of_lt {α : Type} [Inhabited α] (l : List α) (k : Nat) (hk : k < l.length) :
    l.getD k default ∈ l := by
  rw [List.getD_eq_getElem?_getD, List.getElem?_eq_getElem hk]
  simp

/-- If some ant fills `n` cells and no ant fills more, the iteration-best
value is `n` and (for `n > 0`) the iteration-best index points at an ant
attaining it. -/
theorem findBest_full (ants : List AntResult) (n : Nat) (hn : 0 < n)
    (hub : ∀ a ∈ ants, a.filled ≤ n) (hex : ∃ a ∈ ants, a.filled = n) :
    (findBest ants).1 = n ∧ (ants.getD (findBest ants).2 default).filled = n := by
  obtain ⟨a, ha, hafull⟩ := hex
  have h1 : (findBest ants).1 ≤ n := findBestGo_le_bound ants 0 0 0 n (Nat.zero_le n) hub
  have h2 : n ≤ (findBest ants).1 := hafull ▸ findBestGo_mem_le ants 0 0 0 a ha
  have hbest : (findBest ants).1 = n := Nat.le_antisymm h1 h2
  have hbest2 : (findBestGo 0 0 0 ants).1 = n := hbest
  refine ⟨hbest, ?_⟩
  rcases findBestGo_attain ants 0 0 0 with ⟨h3, _⟩ | ⟨k, _, h3, h4⟩
  · omega
  · show (ants.getD (findBestGo 0 0 0 ants).2 default).filled = n
    rw [h4, Nat.zero_add]
    rw [h3, hbest2]

/-- If no ant fills `n = numCells > 0` cells and none fills more, the
iteration-best value is strictly below `n`. -/
theorem findBest_not_full (ants : List AntResult) (n : Nat) (hn : 0 < n)
    (hub : ∀ a ∈ ants, a.filled ≤ n) (hnex : ¬∃ a ∈ ants, a.filled = n) :
    (findBest ants).1 < n := by
  have h1 : (findBest ants).1 ≤ n := findBestGo_le_bound ants 0 0 0 n (Nat.zero_le n) hub
  rcases Nat.lt_or_ge (findBest ants).1 n with h | h
  · exact h
  have hbest : (findBest ants).1 = n := Nat.le_antisymm h1 h
  have hbest2 : (findBestGo 0 0 0 ants).1 = n := hbest
  exfalso
  rcases findBestGo_attain ants 0 0 0 with ⟨h3, _⟩ | ⟨k, hk, h3, _⟩
  · omega
  · refine hnex ⟨ants.getD k default, getD_mem_of_lt ants k hk, ?_⟩
    rw [h3, hbest2]

/-- `SolveIter` never changes `numCells`, `bestEvap`. -/
theorem solveIter_frame (st : ColonyState) (ants : List AntResult) :
    (SolveIter st ants).numCells = st.numCells ∧
      (SolveIter st ants).bestEvap = st.bestEvap := by
  unfold SolveIter
  by_cases h : st.bestPher.lt (PherAdd st.numCells (findBest ants).1)
  · simp [h]
  · simp [h]

/-- In an iteration whose best ant fills every cell, the unguarded division
is evaluated at divisor zero, yields `+∞`, beats any finite `bestPher`, so
`bestSol` becomes that ant's board and `solved` is set. -/
theorem solveIter_full (st : ColonyState) (ants : List AntResult) (hn : 0 < st.numCells)
    (hfin : st.bestPher ≠ Flt.inf)
    (hub : ∀ a ∈ ants, a.filled ≤ st.numCells)
    (hex : ∃ a ∈ ants, a.filled = st.numCells) :
    (SolveIter st ants).solved = true ∧
    (SolveIter st ants).bestPher = Flt.inf ∧
    (SolveIter st ants).bestSol = (ants.getD (findBest ants).2 default).sol ∧
    (ants.getD (findBest ants).2 default).filled = st.numCells := by
  obtain ⟨hbest, hidx⟩ := findBest_full ants st.numCells hn hub hex
  have hadd : PherAdd st.numCells (findBest ants).1 = Flt.inf := by
    rw [hbest]
    simp [PherAdd, Flt.div]
  obtain ⟨q, hq⟩ : ∃ q, st.bestPher = Flt.fin q := by
    cases h : st.bestPher with
    | fin q => exact ⟨q, rfl⟩
    | inf => exact absurd h hfin
  have hlt2 : st.bestPher.lt Flt.inf = true := by
    rw [hq]; rfl
  have hbeq : ((findBest ants).1 == st.numCells) = true := by
    simp [hbest]
  unfold SolveIter
  simp only [hadd, hlt2, eq_self_iff_true, if_true, hbeq, Flt.mulFin]
  exact ⟨trivial, trivial, trivial, hidx⟩

/-- In an iteration whose best ant does not fill every cell, the divisor is
nonzero, the reinforcement stays finite, and `solved` stays `false`. -/
theorem solveIter_not_full (st : ColonyState) (ants : List AntResult) (hn : 0 < st.numCells)
    (hfin : st.bestPher ≠ Flt.inf) (hns : st.solved = false)
    (hub : ∀ a ∈ ants, a.filled ≤ st.numCells)
    (hnex : ¬∃ a ∈ ants, a.filled = st.numCells) :
    (SolveIter st ants).solved = false ∧ (SolveIter st ants).bestPher ≠ Flt.inf := by
  have hlt : (findBest ants).1 < st.numCells := findBest_not_full ants st.numCells hn hub hnex
  have hdvd : ((st.numCells : ℚ) - ((findBest ants).1 : ℚ)) ≠ 0 := by
    have : ((findBest ants).1 : ℚ) < (st.numCells : ℚ) := by exact_mod_cast hlt
    linarith
  have hadd : PherAdd st.numCells (findBest ants).1 =
      Flt.fin ((st.numCells : ℚ) / ((st.numCells : ℚ) - ((findBest ants).1 : ℚ))) := by
    simp [PherAdd, Flt.div, hdvd]
  have hne : ((findBest ants).1 == st.numCells) = false := by
    simp only [beq_eq_false_iff_ne, ne_eq]
    omega
  obtain ⟨q, hq⟩ : ∃ q, st.bestPher = Flt.fin q := by
    cases h2 : st.bestPher with
    | fin q => exact ⟨q, rfl⟩
    | inf => exact absurd h2 hfin
  unfold SolveIter
  simp only [hadd]
  by_cases h : st.bestPher.lt
      (Flt.fin ((st.numCells : ℚ) / ((st.numCells : ℚ) - ((findBest ants).1 : ℚ)))) = true
  · rw [if_pos h]
    constructor
    · simp [hne, hns]
    · simp [Flt.mulFin]
  · rw [if_neg h]
    constructor
    · simpa using hns
    · rw [hq]
      simp [Flt.mulFin]

/-- C10: the single-colony solve loop returns `true` exactly when some
executed iteration produced an ant filling all `numCells` cells; in such an
iteration the unguarded `PherAdd` yields `+∞`, which exceeds the (finite)
`bestPher`, so `bestSol` is replaced by the iteration-best ant's board and
`solved` is set, exiting the loop in that same iteration. -/
theorem claim_C10_solve_returns_iff_full (st : ColonyState) (its : List (List AntResult))
    (hn : 0 < st.numCells) (hfin : st.bestPher ≠ Flt.inf) (hns : st.solved = false)
    (hub : ∀ it ∈ its, ∀ a ∈ it, a.filled ≤ st.numCells) :
    (SolveLoop st its = true ↔ ∃ it ∈ its, ∃ a ∈ it, a.filled = st.numCells) ∧
    (∀ ants, (∀ a ∈ ants, a.filled ≤ st.numCells) → (∃ a ∈ ants, a.filled = st.numCells) →
      (SolveIter st ants).solved = true ∧
      (SolveIter st ants).bestSol = (ants.getD (findBest ants).2 default).sol ∧
      (ants.getD (findBest ants).2 default).filled = st.numCells) := by
  constructor
  · induction its generalizing st with
    | nil =>
      simp [SolveLoop, hns]
    | cons it rest ih =>
      by_cases hex : ∃ a ∈ it, a.filled = st.numCells
      · have hsolved := (solveIter_full st it hn hfin (hub it (List.mem_cons_self it rest)) hex).1
        unfold SolveLoop
        simp only [hsolved, if_true, true_iff]
        exact ⟨it, List.mem_cons_self it rest, hex⟩
      · obtain ⟨hsolved, hfin1⟩ :=
          solveIter_not_full st it hn hfin hns (hub it (List.mem_cons_self it rest)) hex
        obtain ⟨hnc, _⟩ := solveIter_frame st it
        unfold SolveLoop
        simp only [hsolved, Bool.false_eq_true, if_false]
        rw [ih (SolveIter st it) (hnc ▸ hn) hfin1 hsolved
          (fun x hx => by rw [hnc]; exact hub x (List.mem_cons_of_mem it hx))]
        constructor
        · intro ⟨x, hx, hfull⟩
          exact ⟨x, List.mem_cons_of_mem it hx, hnc ▸ hfull⟩
        · intro ⟨x, hx, hfull⟩
          rcases List.mem_cons.mp hx with rfl | hx2
          · exact absurd hfull hex
          · exact ⟨x, hx2, hnc ▸ hfull⟩
  · intro ants hub2 hex2
    obtain ⟨h1, _, h3, h4⟩ := solveIter_full st ants hn hfin hub2 hex2
    exact ⟨h1, h3, h4⟩

/-- A concrete initial solve-loop state with `numCells = 81`, used by the
C5 and C10 witnesses. -/
def colonyStart : ColonyState :=
  { numCells := 81, bestEvap := 1 / 200, bestPher := Flt.fin 0, bestSol := ⟨0, 0, 0, 0⟩,
    solved := false }

/-- A single-iteration schedule where one ant fills all 81 cells. -/
def fullIteration : List AntResult := [⟨81, ⟨0, 0, 0, 0⟩⟩]

/-- A single-iteration schedule where the only ant fills 80 of 81 cells. -/
def partialIteration : List AntResult := [⟨80, ⟨0, 0, 0, 0⟩⟩]

/-- C5 (amended): the reinforcement `pher_to_add = PherAdd(bestVal)` is
computed unconditionally in every iteration — there is no `b < num_cells`
guard.  When the iteration best fills fewer than all cells the divisor
`num_cells − b` is nonzero and the quotient finite; when it fills all the
cells, the division is evaluated with divisor zero, and its IEEE result
`+∞` becomes the new `best_pher` and triggers the solved exit. -/
theorem claim_C5_division_unguarded (st : ColonyState) (ants : List AntResult)
    (hn : 0 < st.numCells) (hfin : st.bestPher ≠ Flt.inf)
    (hub : ∀ a ∈ ants, a.filled ≤ st.numCells) :
    ((findBest ants).1 < st.numCells →
      ((st.numCells : ℚ) - ((findBest ants).1 : ℚ) ≠ 0 ∧
        PherAdd st.numCells (findBest ants).1 =
          Flt.fin ((st.numCells : ℚ) / ((st.numCells : ℚ) - ((findBest ants).1 : ℚ))))) ∧
    ((findBest ants).1 = st.numCells →
      ((st.numCells : ℚ) - ((findBest ants).1 : ℚ) = 0 ∧
        PherAdd st.numCells (findBest ants).1 = Flt.inf ∧
        (SolveIter st ants).bestPher = Flt.inf ∧ (SolveIter st ants).solved = true)) := by
  constructor
  · intro hlt
    have hdvd : ((st.numCells : ℚ) - ((findBest ants).1 : ℚ)) ≠ 0 := by
      have : ((findBest ants).1 : ℚ) < (st.numCells : ℚ) := by exact_mod_cast hlt
      linarith
    exact ⟨hdvd, by simp [PherAdd, Flt.div, hdvd]⟩
  · intro heq
    have hex : ∃ a ∈ ants, a.filled = st.numCells := by
      by_contra hnex
      have := findBest_not_full ants st.numCells hn hub hnex
      omega
    have hz : ((st.numCells : ℚ) - ((findBest ants).1 : ℚ)) = 0 := by
      rw [heq]; ring
    obtain ⟨hs, hp, _, _⟩ := solveIter_full st ants hn hfin hub hex
    refine ⟨hz, ?_, hp, hs⟩
    rw [heq]
    simp [PherAdd, Flt.div]

/-- Counterexample to C5 as stated: in an iteration whose best ant fills
all 81 cells, the division inside `PherAdd` is evaluated with divisor
`81 − 81 = 0` — its `+∞` result appears as the new `best_pher` of the
iteration — so no `b < num_cells` precondition protects it. -/
theorem claim_C5_division_unguarded_counterexample :
    (findBest fullIteration).1 = colonyStart.numCells ∧
    ((colonyStart.numCells : ℚ) - ((findBest fullIteration).1 : ℚ) = 0) ∧
    PherAdd colonyStart.numCells (findBest fullIteration).1 = Flt.inf ∧
    (SolveIter colonyStart fullIteration).bestPher = Flt.inf := by
  have h1 : (findBest fullIteration).1 = 81 := by decide
  have hex : ∃ a ∈ fullIteration, a.filled = colonyStart.numCells :=
    ⟨⟨81, ⟨0, 0, 0, 0⟩⟩, by decide, by decide⟩
  obtain ⟨_, hp, _, _⟩ :=
    solveIter_full colonyStart fullIteration (by decide) (by decide) (by decide) hex
  refine ⟨by decide, ?_, ?_, hp⟩
  · rw [h1]; norm_num [colonyStart]
  · rw [h1]
    show PherAdd 81 81 = Flt.inf
    simp [PherAdd, Flt.div]

/-- Witness for the amended C5 at a concrete state and iteration (one ant,
80 of 81 cells filled). -/
theorem claim_C5_division_unguarded_witness :
    (0 < colonyStart.numCells ∧ colonyStart.bestPher ≠ Flt.inf ∧
      (∀ a ∈ partialIteration, a.filled ≤ colonyStart.numCells)) ∧
    (((findBest partialIteration).1 < colonyStart.numCells →
      ((colonyStart.numCells : ℚ) - ((findBest partialIteration).1 : ℚ) ≠ 0 ∧
        PherAdd colonyStart.numCells (findBest partialIteration).1 =
          Flt.fin ((colonyStart.numCells : ℚ) /
            ((colonyStart.numCells : ℚ) - ((findBest partialIteration).1 : ℚ))))) ∧
    ((findBest partialIteration).1 = colonyStart.numCells →
      ((colonyStart.numCells : ℚ) - ((findBest partialIteration).1 : ℚ) = 0 ∧
        PherAdd colonyStart.numCells (findBest partialIteration).1 = Flt.inf ∧
        (SolveIter colonyStart partialIteration).bestPher = Flt.inf ∧
        (SolveIter colonyStart partialIteration).solved = true))) :=
  ⟨⟨by decide, by decide, by decide⟩,
    claim_C5_division_unguarded colonyStart partialIteration (by decide) (by decide) (by decide)⟩

/-- Witness for C10: at the concrete start state and a one-iteration run
whose only ant fills all 81 cells, the hypotheses hold and the loop
returns `true`. -/
theorem claim_C10_solve_returns_iff_full_witness :
    (0 < colonyStart.numCells ∧ colonyStart.bestPher ≠ Flt.inf ∧
      colonyStart.solved = false ∧
      (∀ it ∈ [fullIteration], ∀ a ∈ it, a.filled ≤ colonyStart.numCells)) ∧
    ((SolveLoop colonyStart [fullIteration] = true ↔
        ∃ it ∈ [fullIteration], ∃ a ∈ it, a.filled = colonyStart.numCells) ∧
      (∀ ants, (∀ a ∈ ants, a.filled ≤ colonyStart.numCells) →
        (∃ a ∈ ants, a.filled = colonyStart.numCells) →
        (SolveIter colonyStart ants).solved = true ∧
        (SolveIter colonyStart ants).bestSol = (ants.getD (findBest ants).2 default).sol ∧
        (ants.getD (findBest ants).2 default).filled = colonyStart.numCells)) :=
  ⟨⟨by decide, by decide, by decide, by decide⟩,
    claim_C10_solve_returns_iff_full colonyStart [fullIteration]
      (by decide) (by decide) (by decide) (by decide)⟩

/-- An in-range `getD` on a `set` list, at the written slot. -/
theorem getD_set_self {α : Type} [Inhabited α] (l : List α) (a : Nat) (v : α)
    (h : a < l.length) : (l.set a v).getD a default = v := by
  rw [List.getD_eq_getElem?_getD, List.getElem?_set_eq_of_lt v h]
  rfl

/-- `getD` on a `set` list, away from the written slot. -/
theorem getD_set_ne {α : Type} [Inhabited α] (l : List α) (a b : Nat) (v : α)
    (h : a ≠ b) : (l.set a v).getD b default = l.getD b default := by
  rw [List.getD_eq_getElem?_getD, List.getElem?_set_ne h, ← List.getD_eq_getElem?_getD]

/-- In-range `getD` through a `map`. -/
theorem getD_map_of_lt {α β : Type} [Inhabited α] [Inhabited β] (l : List α) (h : α → β)
    (i : Nat) (hi : i < l.length) : (l.map h).getD i default = h (l.getD i default) := by
  rw [List.getD_eq_getElem?_getD, List.getElem?_map, List.getElem?_eq_getElem hi,
    List.getD_eq_getElem?_getD, List.getElem?_eq_getElem hi]
  rfl

/-- Any list is the `getD`-enumeration of its indices. -/
theorem eq_map_getD_range {α : Type} [Inhabited α] (l : List α) :
    l = (List.range l.length).map (fun i => l.getD i default) := by
  induction l with
  | nil => rfl
  | cons a t ih =>
    show a :: t = (List.range (t.length + 1)).map _
    rw [List.range_succ_eq_map, List.map_cons, List.map_map]
    refine congrArg (a :: ·) ?_
    refine ih.trans (List.map_congr_left ?_)
    intro i _
    rfl

/-- Mapping over a list is mapping its `getD`-enumeration. -/
theorem map_eq_map_getD_range {α β : Type} [Inhabited α] (l : List α) (f : α → β) :
    l.map f = (List.range l.length).map (fun i => f (l.getD i default)) := by
  conv_lhs => rw [eq_map_getD_range l]
  rw [List.map_map]
  rfl

/-- A delivery loop `for i in [0, m): acc[f i] := g i acc[f i]` over
pairwise-distinct in-range targets: the loop keeps the length, writes
`g i` of the ORIGINAL value at each targeted slot (the slot is untouched
before its unique write), and leaves untargeted slots unchanged. -/
theorem foldl_set_distinct {α : Type} [Inhabited α] (l : List α) (f : Nat → Nat) (g : Nat → α → α)
    (hlt : ∀ i < l.length, f i < l.length)
    (hinj : ∀ i j, i < l.length → j < l.length → f i = f j → i = j) :
    ∀ m, m ≤ l.length →
      (((List.range m).foldl (fun acc i => acc.set (f i) (g i (acc.getD (f i) default))) l).length
          = l.length) ∧
      (∀ k, (∀ i < m, f i ≠ k) →
        ((List.range m).foldl (fun acc i => acc.set (f i) (g i (acc.getD (f i) default)))
            l).getD k default = l.getD k default) ∧
      (∀ i < m,
        ((List.range m).foldl (fun acc i => acc.set (f i) (g i (acc.getD (f i) default)))
            l).getD (f i) default = g i (l.getD (f i) default)) := by
  intro m
  induction m with
  | zero => intro _; exact ⟨rfl, fun k _ => rfl, fun i hi => absurd hi (Nat.not_lt_zero i)⟩
  | succ m ih =>
    intro hm
    obtain ⟨hlen, hmiss, hhit⟩ := ih (Nat.le_of_succ_le hm)
    have hfm : ∀ i < m, f i ≠ f m := by
      intro i hi hne
      have := hinj i m (Nat.lt_of_lt_of_le hi (Nat.le_of_succ_le hm))
        (Nat.lt_of_lt_of_le (Nat.lt_succ_self m) hm) hne
      omega
    have hprior : ((List.range m).foldl
        (fun acc i => acc.set (f i) (g i (acc.getD (f i) default))) l).getD (f m) default =
        l.getD (f m) default := hmiss (f m) hfm
    have hstep : (List.range (m + 1)).foldl
        (fun acc i => acc.set (f i) (g i (acc.getD (f i) default))) l =
        ((List.range m).foldl (fun acc i => acc.set (f i) (g i (acc.getD (f i) default))) l).set
          (f m) (g m (((List.range m).foldl
            (fun acc i => acc.set (f i) (g i (acc.getD (f i) default))) l).getD (f m) default)) := by
      rw [List.range_succ, List.foldl_append, List.foldl_cons, List.foldl_nil]
    have hfmlt : f m < ((List.range m).foldl
        (fun acc i => acc.set (f i) (g i (acc.getD (f i) default))) l).length := by
      rw [hlen]
      exact hlt m (Nat.lt_of_lt_of_le (Nat.lt_succ_self m) hm)
    refine ⟨?_, ?_, ?_⟩
    · rw [hstep, List.length_set, hlen]
    · intro k hk
      rw [hstep, getD_set_ne _ _ _ _ (hk m (Nat.lt_succ_self m))]
      exact hmiss k (fun i hi => hk i (Nat.lt_succ_of_lt hi))
    · intro i hi
      rcases Nat.lt_succ_iff_lt_or_eq.mp hi with hi2 | hi2
      · rw [hstep, getD_set_ne _ _ _ _ (Ne.symm (hfm i hi2))]
        exact hhit i hi2
      · subst hi2
        rw [hstep, getD_set_self _ _ _ hfmlt, hprior]

/-- Successor modulo `n` is injective below `n`. -/
theorem succ_mod_inj (n i j : Nat) (hi : i < n) (hj : j < n)
    (h : (i + 1) % n = (j + 1) % n) : i = j := by
  rcases Nat.lt_or_ge (i + 1) n with h1 | h1 <;> rcases Nat.lt_or_ge (j + 1) n with h2 | h2
  · rw [Nat.mod_eq_of_lt h1, Nat.mod_eq_of_lt h2] at h
    omega
  · have hj1 : j + 1 = n := by omega
    rw [Nat.mod_eq_of_lt h1, hj1, Nat.mod_self] at h
    omega
  · have hi1 : i + 1 = n := by omega
    rw [Nat.mod_eq_of_lt h2, hi1, Nat.mod_self] at h
    omega
  · omega

/-- `k ↦ (k + n - 1) % n` is the inverse of `i ↦ (i + 1) % n` below `n`. -/
theorem pred_mod_succ_mod (n k : Nat) (hk : k < n) :
    ((k + n - 1) % n + 1) % n = k ∧ (k + n - 1) % n < n := by
  have hn : 0 < n := Nat.lt_of_le_of_lt (Nat.zero_le k) hk
  by_cases h0 : k = 0
  · subst h0
    have h1 : (0 + n - 1) % n = n - 1 := by
      rw [Nat.zero_add]
      exact Nat.mod_eq_of_lt (by omega)
    rw [h1]
    have h2 : n - 1 + 1 = n := by omega
    rw [h2, Nat.mod_self]
    exact ⟨rfl, by omega⟩
  · have h1 : k + n - 1 = n + (k - 1) := by omega
    have h2 : (k + n - 1) % n = k - 1 := by
      rw [h1, Nat.add_mod_left]
      exact Nat.mod_eq_of_lt (by omega)
    rw [h2]
    have h3 : k - 1 + 1 = k := by omega
    rw [h3, Nat.mod_eq_of_lt hk]
    exact ⟨rfl, by omega⟩

/-- `i ↦ (i + 1) % n` composed after `k ↦ (k + n - 1) % n` is the identity
below `n`, in the other composition order. -/
theorem succ_mod_pred_mod (n k : Nat) (hk : k < n) :
    (((k + 1) % n) + n - 1) % n = k := by
  have hn : 0 < n := Nat.lt_of_le_of_lt (Nat.zero_le k) hk
  rcases Nat.lt_or_ge (k + 1) n with h1 | h1
  · rw [Nat.mod_eq_of_lt h1]
    have h2 : k + 1 + n - 1 = n + k := by omega
    rw [h2, Nat.add_mod_left]
    exact Nat.mod_eq_of_lt hk
  · have h2 : k + 1 = n := by omega
    rw [h2, Nat.mod_self]
    have h3 : 0 + n - 1 = n - 1 := by omega
    rw [h3]
    have h4 : n - 1 = k := by omega
    rw [h4]
    exact Nat.mod_eq_of_lt hk

/-- C7: after a ring exchange, colony `(i+1) % n` holds the pre-exchange
`iterationBest` of colony `i` in its ring-received slot, with the received
score equal to that board's fixed-cell count; the snapshot sources (every
colony's own `iterationBest`) are untouched by the exchange, and the colony
vector keeps its length. -/
theorem claim_C7_ring_delivery (cs : List SubColony) (i : Nat) (hi : i < cs.length) :
    (((CommunicateRingTopology cs).getD ((i + 1) % cs.length) default).receivedIterationBest =
      (cs.getD i default).iterationBest ∧
    ((CommunicateRingTopology cs).getD ((i + 1) % cs.length)
        default).receivedIterationBestScore =
      (cs.getD i default).iterationBest.FixedCellCount) ∧
    (∀ k < cs.length, ((CommunicateRingTopology cs).getD k default).iterationBest =
      (cs.getD k default).iterationBest) ∧
    (CommunicateRingTopology cs).length = cs.length := by
  have hn : 0 < cs.length := Nat.lt_of_le_of_lt (Nat.zero_le i) hi
  have hlt : ∀ j < cs.length, (j + 1) % cs.length < cs.length :=
    fun j _ => Nat.mod_lt _ hn
  have hinj : ∀ a b, a < cs.length → b < cs.length →
      (a + 1) % cs.length = (b + 1) % cs.length → a = b :=
    fun a b ha hb h => succ_mod_inj cs.length a b ha hb h
  obtain ⟨hlen, hmiss, hhit⟩ := foldl_set_distinct cs (fun j => (j + 1) % cs.length)
    (fun j c => c.ReceiveIterationBest ((cs.map (fun c => c.iterationBest)).getD j default))
    hlt hinj cs.length (Nat.le_refl _)
  have hout : CommunicateRingTopology cs = (List.range cs.length).foldl
      (fun acc j => acc.set ((j + 1) % cs.length)
        ((acc.getD ((j + 1) % cs.length) default).ReceiveIterationBest
          ((cs.map (fun c => c.iterationBest)).getD j default))) cs := rfl
  have hdeliv := hhit i hi
  rw [← hout] at hdeliv hlen
  rw [getD_map_of_lt cs _ i hi] at hdeliv
  refine ⟨⟨?_, ?_⟩, ?_, hlen⟩
  · rw [hdeliv]
    rfl
  · rw [hdeliv]
    rfl
  · intro k hk
    obtain ⟨hinv, hlt2⟩ := pred_mod_succ_mod cs.length k hk
    have hthis := hhit ((k + cs.length - 1) % cs.length) hlt2
    rw [← hout, hinv] at hthis
    rw [hthis]
    rfl

/-- C8: for a permutation `M` of the colony indices, the random exchange
delivers to colony `M[i]` the pre-exchange `bestSol` of colony
`M[(i+n-1) % n]`; the multiset of received boards equals the multiset of
pre-exchange `bestSol` boards, every colony is the delivery target of
exactly one position, and with at least two colonies no colony receives its
own `bestSol`. -/
theorem claim_C8_random_exchange (cs : List SubColony) (M : List Nat)
    (hM : M.Perm (List.range cs.length)) :
    (∀ i < cs.length,
      ((CommunicateRandomTopology cs M).getD (M.getD i 0) default).receivedBestSol =
        (cs.getD (M.getD ((i + cs.length - 1) % cs.length) 0) default).bestSol) ∧
    ((List.range cs.length).map
        (fun k => ((CommunicateRandomTopology cs M).getD k default).receivedBestSol)).Perm
      (cs.map (fun c => c.bestSol)) ∧
    (∀ k < cs.length, ∃ i, i < cs.length ∧ M.getD i 0 = k ∧
      (∀ j < cs.length, M.getD j 0 = k → j = i)) ∧
    (2 ≤ cs.length → ∀ i < cs.length,
      M.getD ((i + cs.length - 1) % cs.length) 0 ≠ M.getD i 0) := by
  have hlenM : M.length = cs.length := hM.length_eq.trans (List.length_range cs.length)
  have hnodup : M.Nodup := hM.nodup_iff.mpr (List.nodup_range cs.length)
  have hMmemlt : ∀ x ∈ M, x < cs.length := by
    intro x hx
    exact List.mem_range.mp (hM.mem_iff.mp hx)
  have hMlt : ∀ i < cs.length, M.getD i 0 < cs.length := by
    intro i hi
    have hi2 : i < M.length := by omega
    rw [List.getD_eq_get M 0 hi2]
    exact hMmemlt _ (List.get_mem M i hi2)
  have hMinj : ∀ i j, i < cs.length → j < cs.length → M.getD i 0 = M.getD j 0 → i = j := by
    intro i j hi hj h
    have hi2 : i < M.length := by omega
    have hj2 : j < M.length := by omega
    rw [List.getD_eq_get M 0 hi2, List.getD_eq_get M 0 hj2] at h
    have := (List.Nodup.get_inj_iff hnodup).mp h
    exact congrArg Fin.val this
  have hpredlt : ∀ i < cs.length, (i + cs.length - 1) % cs.length < cs.length := by
    intro i hi
    exact (pred_mod_succ_mod cs.length i hi).2
  obtain ⟨hlen, hmiss, hhit⟩ := foldl_set_distinct cs (fun i => M.getD i 0)
    (fun i c => c.ReceiveBestSol ((cs.map (fun c => c.bestSol)).getD
      (M.getD ((i + cs.length - 1) % cs.length) 0) default))
    hMlt hMinj cs.length (Nat.le_refl _)
  have hout : CommunicateRandomTopology cs M = (List.range cs.length).foldl
      (fun acc i => acc.set (M.getD i 0)
        ((acc.getD (M.getD i 0) default).ReceiveBestSol
          ((cs.map (fun c => c.bestSol)).getD
            (M.getD ((i + cs.length - 1) % cs.length) 0) default))) cs := rfl
  have hdeliv : ∀ i < cs.length,
      ((CommunicateRandomTopology cs M).getD (M.getD i 0) default).receivedBestSol =
        (cs.getD (M.getD ((i + cs.length - 1) % cs.length) 0) default).bestSol := by
    intro i hi
    have h1 := hhit i hi
    rw [← hout] at h1
    rw [h1]
    show (cs.map (fun c => c.bestSol)).getD (M.getD ((i + cs.length - 1) % cs.length) 0)
      default = _
    exact getD_map_of_lt cs _ _ (hMlt _ (hpredlt i hi))
  refine ⟨hdeliv, ?_, ?_, ?_⟩
  · -- multiset equality, via a chain of permutations and pointwise equalities
    have s1 : ((List.range cs.length).map
        (fun k => ((CommunicateRandomTopology cs M).getD k default).receivedBestSol)).Perm
        (M.map (fun k => ((CommunicateRandomTopology cs M).getD k default).receivedBestSol)) :=
      List.Perm.map _ hM.symm
    have s2 : M.map (fun k => ((CommunicateRandomTopology cs M).getD k default).receivedBestSol) =
        (List.range cs.length).map (fun i =>
          ((CommunicateRandomTopology cs M).getD (M.getD i 0) default).receivedBestSol) := by
      have h := map_eq_map_getD_range M
        (fun k => ((CommunicateRandomTopology cs M).getD k default).receivedBestSol)
      rwa [hlenM] at h
    have s3 : (List.range cs.length).map (fun i =>
        ((CommunicateRandomTopology cs M).getD (M.getD i 0) default).receivedBestSol) =
        (List.range cs.length).map (fun i =>
          (cs.getD (M.getD ((i + cs.length - 1) % cs.length) 0) default).bestSol) := by
      refine List.map_congr_left ?_
      intro i hi
      exact hdeliv i (List.mem_range.mp hi)
    have s4 : (List.range cs.length).map (fun i =>
        (cs.getD (M.getD ((i + cs.length - 1) % cs.length) 0) default).bestSol) =
        ((List.range cs.length).map (fun i => (i + cs.length - 1) % cs.length)).map
          (fun k => (cs.getD (M.getD k 0) default).bestSol) := by
      rw [List.map_map]
      rfl
    have s5 : ((List.range cs.length).map
        (fun i => (i + cs.length - 1) % cs.length)).Perm (List.range cs.length) := by
      have hmnodup : ((List.range cs.length).map
          (fun i => (i + cs.length - 1) % cs.length)).Nodup := by
        refine List.Nodup.map_on ?_ (List.nodup_range cs.length)
        intro x hx y hy hxy
        have hx2 : x < cs.length := List.mem_range.mp hx
        have hy2 : y < cs.length := List.mem_range.mp hy
        have h1 := (pred_mod_succ_mod cs.length x hx2).1
        have h2 := (pred_mod_succ_mod cs.length y hy2).1
        rw [← h1, ← h2, hxy]
      have hmem : ∀ a, a ∈ (List.range cs.length).map
          (fun i => (i + cs.length - 1) % cs.length) ↔ a ∈ List.range cs.length := by
        intro a
        constructor
        · intro ha
          obtain ⟨i, hi, rfl⟩ := List.mem_map.mp ha
          exact List.mem_range.mpr ((pred_mod_succ_mod cs.length i (List.mem_range.mp hi)).2)
        · intro ha
          have ha2 : a < cs.length := List.mem_range.mp ha
          refine List.mem_map.mpr ⟨(a + 1) % cs.length, ?_, ?_⟩
          · exact List.mem_range.mpr (Nat.mod_lt _ (by omega))
          · exact succ_mod_pred_mod cs.length a ha2
      refine List.perm_iff_count.mpr ?_
      intro a
      by_cases ha : a ∈ List.range cs.length
      · rw [List.count_eq_one_of_mem hmnodup ((hmem a).mpr ha),
          List.count_eq_one_of_mem (List.nodup_range cs.length) ha]
      · rw [List.count_eq_zero_of_not_mem (fun h => ha ((hmem a).mp h)),
          List.count_eq_zero_of_not_mem ha]
    have s6 : (((List.range cs.length).map (fun i => (i + cs.length - 1) % cs.length)).map
        (fun k => (cs.getD (M.getD k 0) default).bestSol)).Perm
        ((List.range cs.length).map (fun k => (cs.getD (M.getD k 0) default).bestSol)) :=
      List.Perm.map _ s5
    have s7 : (List.range cs.length).map (fun k => (cs.getD (M.getD k 0) default).bestSol) =
        M.map (fun k => (cs.getD k default).bestSol) := by
      have h := map_eq_map_getD_range M (fun k => (cs.getD k default).bestSol)
      rw [hlenM] at h
      exact h.symm
    have s8 : (M.map (fun k => (cs.getD k default).bestSol)).Perm
        ((List.range cs.length).map (fun k => (cs.getD k default).bestSol)) :=
      List.Perm.map _ hM
    have s9 : (List.range cs.length).map (fun k => (cs.getD k default).bestSol) =
        cs.map (fun c => c.bestSol) := by
      have h1 : cs.map (fun c => c.bestSol) = (List.range cs.length).map
          (fun k => (cs.map (fun c => c.bestSol)).getD k default) := by
        have h2 := eq_map_getD_range (cs.map (fun c => c.bestSol))
        rwa [List.length_map] at h2
      rw [h1]
      refine List.map_congr_left ?_
      intro k hk
      exact (getD_map_of_lt cs _ k (List.mem_range.mp hk)).symm
    refine List.Perm.trans s1 ?_
    rw [s2, s3, s4]
    refine List.Perm.trans s6 ?_
    rw [s7]
    refine List.Perm.trans s8 ?_
    rw [s9]
  · intro k hk
    have hkM : k ∈ M := hM.mem_iff.mpr (List.mem_range.mpr hk)
    obtain ⟨idx, hidx⟩ := List.mem_iff_get.mp hkM
    refine ⟨idx.1, by omega, ?_, ?_⟩
    · rw [List.getD_eq_get M 0 idx.2]
      exact hidx
    · intro j hj hjk
      refine hMinj j idx.1 hj (by omega) ?_
      rw [hjk, List.getD_eq_get M 0 idx.2]
      exact hidx.symm
  · intro h2 i hi
    intro heq
    have hne : (i + cs.length - 1) % cs.length ≠ i := by
      by_cases h0 : i = 0
      · subst h0
        have : (0 + cs.length - 1) % cs.length = cs.length - 1 := by
          rw [Nat.zero_add]
          exact Nat.mod_eq_of_lt (by omega)
        omega
      · have hr : i + cs.length - 1 = cs.length + (i - 1) := by omega
        have : (i + cs.length - 1) % cs.length = i - 1 := by
          rw [hr, Nat.add_mod_left]
          exact Nat.mod_eq_of_lt (by omega)
        omega
    exact hne (hMinj _ _ (hpredlt i hi) hi heq)

/-- Three concrete sub-colonies with distinguishable boards, for the C7 and
C8 witnesses. -/
def ringColonies : List SubColony :=
  [{ (default : SubColony) with iterationBest := ⟨0, 0, 10, 0⟩, bestSol := ⟨0, 0, 1, 0⟩ },
   { (default : SubColony) with iterationBest := ⟨0, 0, 20, 0⟩, bestSol := ⟨0, 0, 2, 0⟩ },
   { (default : SubColony) with iterationBest := ⟨0, 0, 30, 0⟩, bestSol := ⟨0, 0, 3, 0⟩ }]

/-- Witness for C7 on three concrete colonies, at sender index 2 (its
receiver is colony `(2+1) % 3 = 0`). -/
theorem claim_C7_ring_delivery_witness :
    2 < ringColonies.length ∧
    ((((CommunicateRingTopology ringColonies).getD ((2 + 1) % ringColonies.length)
          default).receivedIterationBest =
        (ringColonies.getD 2 default).iterationBest ∧
      ((CommunicateRingTopology ringColonies).getD ((2 + 1) % ringColonies.length)
          default).receivedIterationBestScore =
        (ringColonies.getD 2 default).iterationBest.FixedCellCount) ∧
      (∀ k < ringColonies.length,
        ((CommunicateRingTopology ringColonies).getD k default).iterationBest =
          (ringColonies.getD k default).iterationBest) ∧
      (CommunicateRingTopology ringColonies).length = ringColonies.length) :=
  ⟨by decide, claim_C7_ring_delivery ringColonies 2 (by decide)⟩

/-- Witness for C8 on three concrete colonies with the permutation
`[2, 0, 1]`. -/
theorem claim_C8_random_exchange_witness :
    ([2, 0, 1] : List Nat).Perm (List.range ringColonies.length) ∧
    ((∀ i < ringColonies.length,
      ((CommunicateRandomTopology ringColonies [2, 0, 1]).getD
          (([2, 0, 1] : List Nat).getD i 0) default).receivedBestSol =
        (ringColonies.getD (([2, 0, 1] : List Nat).getD
          ((i + ringColonies.length - 1) % ringColonies.length) 0) default).bestSol) ∧
    ((List.range ringColonies.length).map
        (fun k => ((CommunicateRandomTopology ringColonies [2, 0, 1]).getD k
          default).receivedBestSol)).Perm
      (ringColonies.map (fun c => c.bestSol)) ∧
    (∀ k < ringColonies.length, ∃ i, i < ringColonies.length ∧
      ([2, 0, 1] : List Nat).getD i 0 = k ∧
      (∀ j < ringColonies.length, ([2, 0, 1] : List Nat).getD j 0 = k → j = i)) ∧
    (2 ≤ ringColonies.length → ∀ i < ringColonies.length,
      ([2, 0, 1] : List Nat).getD ((i + ringColonies.length - 1) % ringColonies.length) 0 ≠
        ([2, 0, 1] : List Nat).getD i 0)) :=
  ⟨by decide, claim_C8_random_exchange ringColonies [2, 0, 1] (by decide)⟩

/-- Field-wise extensionality for `ValueSet`. -/
theorem valueSet_ext {a b : ValueSet} (h1 : a.maxVal = b.maxVal) (h2 : a.bits = b.bits) : a = b := by
  cases a; cases b; cases h1; cases h2; rfl

/-- `SetCellDirect` keeps the board geometry. -/
theorem setCellDirect_numUnits (b : Board) (i : Nat) (v : ValueSet) :
    (b.SetCellDirect i v).numUnits = b.numUnits := rfl

/-- The packed-word form of `SetCellDirect`. -/
theorem setCellDirect_cells (b : Board) (i : Nat) (v : ValueSet) :
    (b.SetCellDirect i v).cells =
      (b.cells ^^^ ((b.GetCell i).bits <<< (b.numUnits * i))) |||
        ((v.bits &&& ValueSet.maskOf b.numUnits) <<< (b.numUnits * i)) := rfl

/-- The packed-word form of `GetCell`. -/
theorem getCell_bits (b : Board) (i : Nat) :
    (b.GetCell i).bits = (b.cells >>> (b.numUnits * i)) &&& ValueSet.maskOf b.numUnits := rfl

/-- Bit `k` of cell `i` is bit `numUnits*i + k` of the packed word, and
zero beyond the cell's width. -/
theorem getCell_testBit (b : Board) (i k : Nat) :
    (b.GetCell i).bits.testBit k =
      (b.cells.testBit (b.numUnits * i + k) && decide (k < b.numUnits)) := by
  rw [getCell_bits, Nat.testBit_and, Nat.testBit_shiftRight, ValueSet.maskOf,
    Nat.testBit_two_pow_sub_one]

/-- Array law: reading the slot just written returns the written word
(masked to the universe width). -/
theorem getCell_setCellDirect_self (b : Board) (i : Nat) (v : ValueSet) :
    (b.SetCellDirect i v).GetCell i = ⟨b.numUnits, v.bits &&& ValueSet.maskOf b.numUnits⟩ := by
  refine valueSet_ext rfl ?_
  refine Nat.eq_of_testBit_eq ?_
  intro k
  rw [getCell_testBit, setCellDirect_numUnits, setCellDirect_cells]
  rw [Nat.testBit_or, Nat.testBit_xor, Nat.testBit_shiftLeft, Nat.testBit_shiftLeft,
    Nat.testBit_and, Nat.testBit_and, ValueSet.maskOf, Nat.testBit_two_pow_sub_one]
  have hle : b.numUnits * i ≤ b.numUnits * i + k := Nat.le_add_right _ _
  have hsub : b.numUnits * i + k - b.numUnits * i = k := by omega
  rw [getCell_testBit]
  simp only [hle, decide_eq_true_eq, hsub, Nat.testBit_two_pow_sub_one]
  by_cases hk : k < b.numUnits
  · simp [hk]
  · simp [hk]

/-- Array law: writing one slot leaves every other slot unchanged. -/
theorem getCell_setCellDirect_ne (b : Board) (i j : Nat) (v : ValueSet) (hne : i ≠ j) :
    (b.SetCellDirect i v).GetCell j = b.GetCell j := by
  refine valueSet_ext rfl ?_
  refine Nat.eq_of_testBit_eq ?_
  intro k
  rw [getCell_testBit, getCell_testBit, setCellDirect_numUnits, setCellDirect_cells]
  by_cases hk : k < b.numUnits
  · rw [Nat.testBit_or, Nat.testBit_xor, Nat.testBit_shiftLeft, Nat.testBit_shiftLeft]
    rcases Nat.lt_or_gt_of_ne hne with hij | hij
    · -- i < j : the written field lies strictly below position numUnits*j + k
      have h1 : b.numUnits * (i + 1) ≤ b.numUnits * j := Nat.mul_le_mul_left _ hij
      have h2 : b.numUnits * (i + 1) = b.numUnits * i + b.numUnits := Nat.mul_succ _ _
      have hge : b.numUnits * i ≤ b.numUnits * j + k := by omega
      have hsub : b.numUnits ≤ b.numUnits * j + k - b.numUnits * i := by omega
      have hf : decide (b.numUnits * j + k - b.numUnits * i < b.numUnits) = false := by
        simp only [decide_eq_false_iff_not]
        omega
      simp only [getCell_testBit, Nat.testBit_and, ValueSet.maskOf,
        Nat.testBit_two_pow_sub_one, hf, Bool.and_false, Bool.xor_false, Bool.or_false]
    · -- j < i : position numUnits*j + k is below the written field
      have h1 : b.numUnits * (j + 1) ≤ b.numUnits * i := Nat.mul_le_mul_left _ hij
      have h2 : b.numUnits * (j + 1) = b.numUnits * j + b.numUnits := Nat.mul_succ _ _
      have hlt : b.numUnits * j + k < b.numUnits * i := by omega
      have hf : decide (b.numUnits * i ≤ b.numUnits * j + k) = false := by
        simp only [decide_eq_false_iff_not]
        omega
      simp only [hf, Bool.false_and, Bool.xor_false, Bool.or_false]
  · simp [hk]

/-- `popCountAux` ignores the fuel once it dominates the word. -/
theorem popCountAux_eq : ∀ f1 f2 n, n ≤ f1 → n ≤ f2 → popCountAux f1 n = popCountAux f2 n := by
  intro f1
  induction f1 with
  | zero =>
    intro f2 n h1 _
    have hn : n = 0 := Nat.le_zero.mp h1
    subst hn
    cases f2 with
    | zero => rfl
    | succ f2 => simp [popCountAux]
  | succ f1 ih =>
    intro f2 n h1 h2
    cases f2 with
    | zero =>
      have hn : n = 0 := Nat.le_zero.mp h2
      subst hn
      simp [popCountAux]
    | succ f2 =>
      by_cases hn : n = 0
      · subst hn; simp [popCountAux]
      · show (if n = 0 then 0 else n % 2 + popCountAux f1 (n / 2)) =
          (if n = 0 then 0 else n % 2 + popCountAux f2 (n / 2))
        rw [if_neg hn, if_neg hn]
        have hd : n / 2 ≤ f1 := by omega
        have hd2 : n / 2 ≤ f2 := by omega
        rw [ih f2 (n / 2) hd hd2]

/-- The binary recurrence of `popCount`. -/
theorem popCount_rec (n : Nat) (hn : n ≠ 0) : popCount n = n % 2 + popCount (n / 2) := by
  cases n with
  | zero => exact absurd rfl hn
  | succ m =>
    show popCountAux (m + 1) (m + 1) = (m + 1) % 2 + popCountAux ((m + 1) / 2) ((m + 1) / 2)
    have h1 : popCountAux (m + 1) (m + 1) = (m + 1) % 2 + popCountAux m ((m + 1) / 2) := by
      show (if m + 1 = 0 then 0 else (m + 1) % 2 + popCountAux m ((m + 1) / 2)) = _
      rw [if_neg (Nat.succ_ne_zero m)]
    rw [h1]
    congr 1
    exact popCountAux_eq m ((m + 1) / 2) ((m + 1) / 2) (by omega) (Nat.le_refl _)

theorem popCount_zero : popCount 0 = 0 := rfl

/-- `popCount` is zero only on the zero word. -/
theorem popCount_eq_zero_iff (n : Nat) : popCount n = 0 ↔ n = 0 := by
  constructor
  · intro h
    induction n using Nat.strong_induction_on with
    | _ n ih =>
      by_cases hn : n = 0
      · exact hn
      · rw [popCount_rec n hn] at h
        have h1 : n % 2 = 0 := by omega
        have h2 : popCount (n / 2) = 0 := by omega
        have h3 : n / 2 = 0 := ih (n / 2) (Nat.div_lt_self (Nat.pos_of_ne_zero hn) one_lt_two) h2
        omega
  · intro h; subst h; rfl

/-- A power of two has a single set bit. -/
theorem popCount_two_pow (d : Nat) : popCount (2 ^ d) = 1 := by
  induction d with
  | zero => rfl
  | succ d ih =>
    have h1 : (2 : Nat) ^ (d + 1) = 2 ^ d * 2 := by ring
    have hne : (2 : Nat) ^ (d + 1) ≠ 0 := by positivity
    rw [popCount_rec _ hne, h1]
    rw [Nat.mul_mod_left, Nat.mul_div_cancel]
    · rw [ih]
    · omega

/-- The single-bit words are exactly the powers of two. -/
theorem popCount_eq_one_iff (n : Nat) : popCount n = 1 ↔ ∃ d, n = 2 ^ d := by
  constructor
  · intro h
    induction n using Nat.strong_induction_on with
    | _ n ih =>
      by_cases hn : n = 0
      · subst hn
        exact absurd h (by decide)
      · rw [popCount_rec n hn] at h
        rcases Nat.lt_or_ge (n % 2) 1 with h1 | h1
        · have h2 : popCount (n / 2) = 1 := by omega
          obtain ⟨d, hd⟩ := ih (n / 2) (Nat.div_lt_self (Nat.pos_of_ne_zero hn) one_lt_two) h2
          refine ⟨d + 1, ?_⟩
          have h3 : n % 2 = 0 := by omega
          have h4 : n = n / 2 * 2 := by omega
          rw [h4, hd]
          ring
        · have h2 : popCount (n / 2) = 0 := by omega
          have h3 : n / 2 = 0 := (popCount_eq_zero_iff _).mp h2
          have h4 : n = 1 := by omega
          exact ⟨0, by omega⟩
  · intro ⟨d, hd⟩
    subst hd
    exact popCount_two_pow d

/-- Word-level inclusion is reflexive. -/
theorem land_self_eq (a : Nat) : a &&& a = a := Nat.and_self a

/-- `a &&& b` is included in `a`. -/
theorem land_incl_left (a b : Nat) : (a &&& b) &&& a = a &&& b := by
  rw [Nat.and_comm (a &&& b) a, ← Nat.and_assoc, Nat.and_self]

/-- Word-level inclusion is transitive. -/
theorem land_incl_trans {a b c : Nat} (h1 : a &&& b = a) (h2 : b &&& c = b) : a &&& c = a := by
  calc a &&& c = (a &&& b) &&& c := by rw [h1]
    _ = a &&& (b &&& c) := Nat.and_assoc a b c
    _ = a &&& b := by rw [h2]
    _ = a := h1

/-- A word included in a single-bit word is empty or that word. -/
theorem land_two_pow_cases (x d : Nat) (h : x &&& 2 ^ d = x) : x = 0 ∨ x = 2 ^ d := by
  by_cases hb : x.testBit d
  · right
    refine Nat.eq_of_testBit_eq ?_
    intro t
    rw [← h, Nat.testBit_and, Nat.testBit_two_pow]
    by_cases ht : d = t
    · subst ht
      simp [hb]
    · simp [ht]
  · left
    refine Nat.eq_of_testBit_eq ?_
    intro t
    rw [← h, Nat.testBit_and, Nat.testBit_two_pow, Nat.zero_testBit]
    by_cases ht : d = t
    · subst ht
      simp [hb]
    · simp [ht]

/-- Masking a single-bit word to a width keeps or clears the bit. -/
theorem two_pow_land_mask (d u : Nat) :
    2 ^ d &&& (2 ^ u - 1) = if d < u then 2 ^ d else 0 := by
  refine Nat.eq_of_testBit_eq ?_
  intro t
  rw [Nat.testBit_and, Nat.testBit_two_pow, Nat.testBit_two_pow_sub_one]
  by_cases ht : d = t
  · subst ht
    by_cases hd : d < u <;> simp [hd, Nat.testBit_two_pow, Nat.zero_testBit]
  · by_cases hd : d < u <;> simp [ht, hd, Nat.testBit_two_pow, Nat.zero_testBit]

/-- `IncrementFixedCells` and `IncrementInfeasible` do not touch the grid. -/
theorem getCell_incrementFixedCells (b : Board) (k : Nat) :
    (b.IncrementFixedCells).GetCell k = b.GetCell k := rfl

theorem getCell_incrementInfeasible (b : Board) (k : Nat) :
    (b.IncrementInfeasible).GetCell k = b.GetCell k := rfl

/-- One constraint-propagation call, as issued by the engine: the two rules,
the per-cell propagation entry point, or a direct `SetCellAndPropagate`. -/
inductive CPOp where
  | rule1 (i : Nat)
  | rule2 (i : Nat)
  | propagate (i : Nat)
  | setAndPropagate (i : Nat) (v : ValueSet)

/-- Run one CP operation on a board. -/
def applyCPOp (fuel : Nat) (b : Board) : CPOp → Board
  | CPOp.rule1 i => (Rule1_Elimination fuel b i).1
  | CPOp.rule2 i => (Rule2_HiddenSingle fuel b i).1
  | CPOp.propagate i => PropagateConstraints fuel b i
  | CPOp.setAndPropagate i v => SetCellAndPropagate fuel b i v

/-- Run a sequence of CP operations left to right. -/
def applyCPOps (fuel : Nat) (b : Board) (ops : List CPOp) : Board :=
  ops.foldl (applyCPOp fuel) b

/-- Direct `SetCellAndPropagate` calls carry a single-value set (as at every
call site of the engine: puzzle givens, rule branches, ant assignments). -/
def opFixedValue : CPOp → Prop
  | CPOp.setAndPropagate _ v => v.Fixed = true
  | _ => True

/-- Generic preservation of a step relation `R` by the four CP functions:
`R` must be reflexive and transitive, hold across the two kinds of cell
write (the counted overwrite of `SetCellAndPropagate` for values satisfying
`P`, and Rule-1's pruning write) and across the infeasible-counter bump;
`P` must cover the fixed values the rule branches pass on. -/
theorem cp_preserve (P : ValueSet → Prop) (R : Board → Board → Prop)
    (hrefl : ∀ b, R b b)
    (htrans : ∀ a b c, R a b → R b c → R a c)
    (hPfix : ∀ v, v.Fixed = true → P v)
    (hwrite : ∀ b i v, P v → R b ((b.SetCellDirect i v).IncrementFixedCells))
    (hprune : ∀ b i fc, R b (b.SetCellDirect i ((b.GetCell i).inter fc)))
    (hinfeas : ∀ b, R b b.IncrementInfeasible) :
    ∀ fuel,
      (∀ b i v, P v → R b (SetCellAndPropagate fuel b i v)) ∧
      (∀ b i, R b (PropagateConstraints fuel b i)) ∧
      (∀ b i, R b (Rule1_Elimination fuel b i).1) ∧
      (∀ b i, R b (Rule2_HiddenSingle fuel b i).1) := by
  intro fuel
  induction fuel with
  | zero =>
    exact ⟨fun b _ _ _ => hrefl b, fun b _ => hrefl b, fun b _ => hrefl b, fun b _ => hrefl b⟩
  | succ fuel ih =>
    obtain ⟨ihS, ihP, ih1, ih2⟩ := ih
    have hcond : ∀ (x : Board) (c : Bool) (k : Nat),
        R x (if c = true then PropagateConstraints fuel x k else x) := by
      intro x c k
      cases c
      · exact hrefl x
      · exact ihP x k
    have hfold : ∀ (l : List Nat) (b0 : Board) (f : Board → Nat → Board),
        (∀ bb j, R bb (f bb j)) → R b0 (l.foldl f b0) := by
      intro l
      induction l with
      | nil => intro b0 f _; exact hrefl b0
      | cons x xs ihl =>
        intro b0 f hstep
        exact htrans _ _ _ (hstep b0 x) (ihl (f b0 x) f hstep)
    refine ⟨?_, ?_, ?_, ?_⟩
    · intro b i v hPv
      simp only [SetCellAndPropagate]
      by_cases hfix : (b.GetCell i).Fixed = true
      · simp only [hfix, if_true]
        exact hrefl b
      · simp only [hfix, Bool.false_eq_true, if_false]
        refine htrans _ _ _ (hwrite b i v hPv) (hfold _ _ _ ?_)
        intro bb j
        exact htrans _ _ _ (hcond bb _ _) (htrans _ _ _ (hcond _ _ _) (hcond _ _ _))
    · intro b i
      simp only [PropagateConstraints]
      by_cases hskip : ((b.GetCell i).Empty || (b.GetCell i).Fixed) = true
      · simp only [hskip, if_true]
        exact hrefl b
      · simp only [hskip, Bool.false_eq_true, if_false]
        by_cases hr1 : (Rule1_Elimination fuel b i).2 = true
        · simp only [hr1, if_true]
          exact ih1 b i
        · simp only [hr1, Bool.false_eq_true, if_false]
          refine htrans _ _ _ (ih1 b i)
            (htrans _ _ _ (ih2 (Rule1_Elimination fuel b i).1 i) ?_)
          by_cases hemp :
              (((Rule2_HiddenSingle fuel (Rule1_Elimination fuel b i).1 i).1).GetCell i).Empty
                = true
          · simp only [hemp, if_true]
            exact hinfeas _
          · simp only [hemp, Bool.false_eq_true, if_false]
            exact hrefl _
    · intro b i
      simp only [Rule1_Elimination]
      by_cases hskip : ((b.GetCell i).Empty || (b.GetCell i).Fixed) = true
      · simp only [hskip, if_true]
        exact hrefl b
      · simp only [hskip, Bool.false_eq_true, if_false]
        by_cases hfc :
            (((collectFixed b i).2.2.add (collectFixed b i).2.1).add
              (collectFixed b i).1).compl.Fixed = true
        · simp only [hfc, if_true]
          exact ihS b i _ (hPfix _ hfc)
        · simp only [hfc, Bool.false_eq_true, if_false]
          exact hprune b i _
    · intro b i
      simp only [Rule2_HiddenSingle]
      by_cases hskip : ((b.GetCell i).Empty || (b.GetCell i).Fixed) = true
      · simp only [hskip, if_true]
        exact hrefl b
      · simp only [hskip, Bool.false_eq_true, if_false]
        by_cases h1 : ((b.GetCell i).sub (collectAll b i).2.2).Fixed = true
        · simp only [h1, if_true]
          exact ihS b i _ (hPfix _ h1)
        · simp only [h1, Bool.false_eq_true, if_false]
          by_cases h2 : ((b.GetCell i).sub (collectAll b i).2.1).Fixed = true
          · simp only [h2, if_true]
            exact ihS b i _ (hPfix _ h2)
          · simp only [h2, Bool.false_eq_true, if_false]
            by_cases h3 : ((b.GetCell i).sub (collectAll b i).1).Fixed = true
            · simp only [h3, if_true]
              exact ihS b i _ (hPfix _ h3)
            · simp only [h3, Bool.false_eq_true, if_false]
              exact hrefl b

/-- `Fixed` means the word is a single power of two. -/
theorem fixed_iff_exists_pow (a : ValueSet) : a.Fixed = true ↔ ∃ d, a.bits = 2 ^ d := by
  simp only [ValueSet.Fixed, ValueSet.Count, beq_iff_eq]
  exact popCount_eq_one_iff a.bits

/-- An empty word is a subset of anything. -/
theorem subset_of_bits_zero {a b : ValueSet} (h : a.bits = 0) : a.Subset b := by
  show a.bits &&& b.bits = a.bits
  rw [h]
  exact Nat.zero_and b.bits

/-- A single-bit word is fixed. -/
theorem fixed_of_bits_two_pow {a : ValueSet} (d : Nat) (h : a.bits = 2 ^ d) : a.Fixed = true :=
  (fixed_iff_exists_pow a).mpr ⟨d, h⟩

/-- `Fixed` only looks at the word. -/
theorem fixed_of_bits_eq {a b : ValueSet} (h : a.bits = b.bits) (hb : b.Fixed = true) :
    a.Fixed = true := by
  obtain ⟨d, hd⟩ := (fixed_iff_exists_pow b).mp hb
  exact (fixed_iff_exists_pow a).mpr ⟨d, h.trans hd⟩

/-- `Subset` is reflexive. -/
theorem subset_refl (a : ValueSet) : a.Subset a := Nat.and_self a.bits

/-- A subset of a fixed set is empty or the whole set. -/
theorem subset_of_subset_fixed {a b : ValueSet} (hs : a.Subset b) (hb : b.Fixed = true) :
    a.bits = 0 ∨ a.bits = b.bits := by
  obtain ⟨d, hd⟩ := (fixed_iff_exists_pow b).mp hb
  have hcase := land_two_pow_cases a.bits d (by rw [← hd]; exact hs)
  rcases hcase with h | h
  · exact Or.inl h
  · rw [hd]
    exact Or.inr h

/-- The invariant the CP engine actually preserves: the fixed-cell counter
never decreases, the geometry is unchanged, and each cell's candidate set
either loses bits only or ends up fixed (it can be *overwritten* by the
fixed value of a `SetCellAndPropagate` call, which may add bits). -/
def CPInv (b b' : Board) : Prop :=
  b.numFixedCells ≤ b'.numFixedCells ∧ b'.order = b.order ∧
    ∀ k, ((b'.GetCell k).Subset (b.GetCell k)) ∨ (b'.GetCell k).Fixed = true

theorem cpInv_refl (b : Board) : CPInv b b :=
  ⟨Nat.le_refl _, rfl, fun _ => Or.inl (subset_refl _)⟩

theorem cpInv_trans (a b c : Board) (hab : CPInv a b) (hbc : CPInv b c) : CPInv a c := by
  refine ⟨le_trans hab.1 hbc.1, hbc.2.1.trans hab.2.1, ?_⟩
  intro k
  rcases hbc.2.2 k with hsub2 | hfix2
  · rcases hab.2.2 k with hsub1 | hfix1
    · exact Or.inl (land_incl_trans hsub2 hsub1)
    · rcases subset_of_subset_fixed hsub2 hfix1 with hz | he
      · exact Or.inl (subset_of_bits_zero hz)
      · exact Or.inr (fixed_of_bits_eq he hfix1)
  · exact Or.inr hfix2

theorem cpInv_write (b : Board) (i : Nat) (v : ValueSet) (hv : v.Fixed = true) :
    CPInv b ((b.SetCellDirect i v).IncrementFixedCells) := by
  refine ⟨Nat.le_succ _, rfl, ?_⟩
  intro k
  by_cases hk : k = i
  · subst hk
    rw [getCell_incrementFixedCells, getCell_setCellDirect_self]
    obtain ⟨d, hd⟩ := (fixed_iff_exists_pow v).mp hv
    have hbits : ((⟨b.numUnits, v.bits &&& ValueSet.maskOf b.numUnits⟩ : ValueSet)).bits
        = if d < b.numUnits then 2 ^ d else 0 := by
      show v.bits &&& ValueSet.maskOf b.numUnits = _
      rw [hd, ValueSet.maskOf, two_pow_land_mask]
    by_cases hdu : d < b.numUnits
    · rw [if_pos hdu] at hbits
      exact Or.inr (fixed_of_bits_two_pow d hbits)
    · rw [if_neg hdu] at hbits
      exact Or.inl (subset_of_bits_zero hbits)
  · rw [getCell_incrementFixedCells, getCell_setCellDirect_ne _ _ _ _ (fun h => hk h.symm)]
    exact Or.inl (subset_refl _)

theorem cpInv_prune (b : Board) (i : Nat) (fc : ValueSet) :
    CPInv b (b.SetCellDirect i ((b.GetCell i).inter fc)) := by
  refine ⟨Nat.le_refl _, rfl, ?_⟩
  intro k
  by_cases hk : k = i
  · subst hk
    rw [getCell_setCellDirect_self]
    exact Or.inl (land_incl_trans (land_incl_left _ _) (land_incl_left _ _))
  · rw [getCell_setCellDirect_ne _ _ _ _ (fun h => hk h.symm)]
    exact Or.inl (subset_refl _)

theorem cpInv_infeas (b : Board) : CPInv b b.IncrementInfeasible :=
  ⟨Nat.le_refl _, rfl, fun _ => Or.inl (subset_refl _)⟩

/-- A fresh order-2 board with every cell holding the full universe, built
the way the board constructor initialises its array (complement of the
empty `Init` set written into every cell). -/
def c3Board : Board :=
  (List.range 16).foldl (fun b i => b.SetCellDirect i ((b.GetCell i).compl)) ⟨2, 0, 0, 0⟩

/-- Fix cell 0 of the fresh board to value 1 and propagate. -/
def c3b1 : Board := SetCellAndPropagate 50 c3Board 0 (ValueSet.ofValue 4 1)

/-- Then force value 1 into cell 1 as well (a conflicting assignment, as an
ant is free to attempt). -/
def c3b2 : Board := SetCellAndPropagate 50 c3b1 1 (ValueSet.ofValue 4 1)

/-- The list of CP operations of the scenario above. -/
def c3Ops : List CPOp :=
  [CPOp.setAndPropagate 0 (ValueSet.ofValue 4 1), CPOp.setAndPropagate 1 (ValueSet.ofValue 4 1)]

/-- Counterexample to claim C3 as stated: across a sequence of CP
operations a cell's candidate set CAN gain a bit.  On a fresh order-2
board, fixing cell 0 to value 1 prunes candidate 1 from its row peer
cell 1 (bit 0 drops to 0); a subsequent `SetCellAndPropagate` of value 1
at cell 1 — cell 1 is not yet fixed, so the write is
performed — overwrites its candidate set with `{1}` and bit 0 comes back.
The counter half of the claim does hold (`numFixedCells` never drops). -/
theorem claim_C3_gain_counterexample :
    ((c3b1.GetCell 1).bits.testBit 0 = false ∧ (c3b2.GetCell 1).bits.testBit 0 = true) ∧
      ¬ (c3b2.GetCell 1).Subset (c3b1.GetCell 1) := by
  decide

/-- **C3** (corrected).  Across any sequence of CP operations whose direct
`SetCellAndPropagate` calls carry fixed values (every call site does:
puzzle givens, the rules' singleton results, ant assignments),
`num_fixed_cells` never decreases and the geometry is unchanged — that
half of the claim holds.  The "no cell ever gains a bit" half is false
(see the counterexample): what holds is that every cell either loses
bits only or ends up fixed, because `SetCellAndPropagate` may overwrite
a non-fixed cell with a conflicting fixed value. -/
theorem claim_C3_cp_monotonicity (fuel : Nat) (ops : List CPOp) (b : Board)
    (hops : ∀ op ∈ ops, opFixedValue op) :
    b.numFixedCells ≤ (applyCPOps fuel b ops).numFixedCells ∧
      (applyCPOps fuel b ops).order = b.order ∧
      ∀ k, ((applyCPOps fuel b ops).GetCell k).Subset (b.GetCell k) ∨
        ((applyCPOps fuel b ops).GetCell k).Fixed = true := by
  have H := cp_preserve (fun v => v.Fixed = true) CPInv
    cpInv_refl cpInv_trans (fun _ hv => hv) cpInv_write cpInv_prune cpInv_infeas
  have hop : ∀ (b : Board) (op : CPOp), opFixedValue op → CPInv b (applyCPOp fuel b op) := by
    intro b op hP
    cases op with
    | rule1 i => exact (H fuel).2.2.1 b i
    | rule2 i => exact (H fuel).2.2.2 b i
    | propagate i => exact (H fuel).2.1 b i
    | setAndPropagate i v => exact (H fuel).1 b i v hP
  have hfold : ∀ (l : List CPOp) (b : Board), (∀ op ∈ l, opFixedValue op) →
      CPInv b (applyCPOps fuel b l) := by
    intro l
    induction l with
    | nil => intro b _; exact cpInv_refl b
    | cons x xs ihl =>
      intro b hl
      have hx := hop b x (hl x (List.mem_cons_self x xs))
      have hxs := ihl (applyCPOp fuel b x) (fun op hmem => hl op (List.mem_cons_of_mem x hmem))
      exact cpInv_trans _ _ _ hx hxs
  exact hfold ops b hops

/-- Witness for C3: the corrected monotonicity theorem applied to the
concrete two-write scenario of the counterexample. -/
theorem claim_C3_cp_monotonicity_witness :
    (∀ op ∈ c3Ops, opFixedValue op) ∧
      (c3Board.numFixedCells ≤ (applyCPOps 50 c3Board c3Ops).numFixedCells ∧
        (applyCPOps 50 c3Board c3Ops).order = c3Board.order ∧
        ∀ k, ((applyCPOps 50 c3Board c3Ops).GetCell k).Subset (c3Board.GetCell k) ∨
          ((applyCPOps 50 c3Board c3Ops).GetCell k).Fixed = true) := by
  have hops : ∀ op ∈ c3Ops, opFixedValue op := by
    intro op hop
    simp only [c3Ops, List.mem_cons, List.not_mem_nil, or_false] at hop
    rcases hop with rfl | rfl
    · exact (by decide : (ValueSet.ofValue 4 1).Fixed = true)
    · exact (by decide : (ValueSet.ofValue 4 1).Fixed = true)
  exact ⟨hops, claim_C3_cp_monotonicity 50 c3Ops c3Board hops⟩

/-- Folding a bitwise-or over a filtered list is folding a conditional or
over the whole list. -/
theorem foldl_or_filter (p : Nat → Bool) (g : Nat → Nat) :
    ∀ (l : List Nat) (w : Nat),
      (l.filter p).foldl (fun w k => w ||| g k) w =
        l.foldl (fun w k => if p k then w ||| g k else w) w := by
  intro l
  induction l with
  | nil => intro w; rfl
  | cons x xs ih =>
    intro w
    by_cases hx : p x = true
    · simp only [List.filter_cons, hx, if_true, List.foldl_cons]
      exact ih (w ||| g x)
    · simp only [List.filter_cons, hx, Bool.false_eq_true, if_false, List.foldl_cons]
      exact ih w

/-- The accumulator of a conditional or-fold can be hoisted out. -/
theorem foldl_orIf_acc (p : Nat → Bool) (g : Nat → Nat) :
    ∀ (l : List Nat) (w : Nat),
      l.foldl (fun w k => if p k then w ||| g k else w) w =
        w ||| l.foldl (fun w k => if p k then w ||| g k else w) 0 := by
  intro l
  induction l with
  | nil => intro w; exact (Nat.or_zero w).symm
  | cons x xs ih =>
    intro w
    by_cases hx : p x = true
    · simp only [List.foldl_cons, hx, if_true]
      rw [ih (w ||| g x), ih (0 ||| g x), Nat.zero_or, Nat.or_assoc]
    · simp only [List.foldl_cons, hx, Bool.false_eq_true, if_false]
      exact ih w

/-- The conditional or-fold of the fixed peer values seen through a peer
map `f` (one unit of the board). -/
def orFoldIf (b : Board) (i : Nat) (f : Nat → Nat) (l : List Nat) : Nat :=
  l.foldl
    (fun w j => if f j != i && (b.GetCell (f j)).Fixed then w ||| (b.GetCell (f j)).bits else w) 0

/-- Modelled from the spec: "the union F of all fixed values occurring in
c's row, column, and box (excluding c)" — one flat union over the box,
column and row peer lists, restricted to the fixed cells other than `i`. -/
def specFixedUnion (b : Board) (i : Nat) : ValueSet :=
  ⟨b.GetNumUnits,
    (((List.range b.GetNumUnits).map (fun j => b.BoxCell (b.BoxForCell i) j) ++
      (List.range b.GetNumUnits).map (fun j => b.ColCell (b.ColForCell i) j) ++
      (List.range b.GetNumUnits).map (fun j => b.RowCell (b.RowForCell i) j)).filter
        (fun k => k != i && (b.GetCell k).Fixed)).foldl
      (fun w k => w ||| (b.GetCell k).bits) 0⟩

/-- The three accumulators of `collectFixed`'s loop evolve independently:
box, column and row or-folds on top of the incoming accumulator. -/
theorem collectFixed_go (b : Board) (i : Nat) :
    ∀ (l : List Nat) (acc : ValueSet × ValueSet × ValueSet),
      l.foldl
        (fun acc j =>
          let k1 := b.BoxCell (b.BoxForCell i) j
          let acc1 := if k1 != i && (b.GetCell k1).Fixed then
              (acc.1.add (b.GetCell k1), acc.2.1, acc.2.2) else acc
          let k2 := b.ColCell (b.ColForCell i) j
          let acc2 := if k2 != i && (b.GetCell k2).Fixed then
              (acc1.1, acc1.2.1.add (b.GetCell k2), acc1.2.2) else acc1
          let k3 := b.RowCell (b.RowForCell i) j
          if k3 != i && (b.GetCell k3).Fixed then
              (acc2.1, acc2.2.1, acc2.2.2.add (b.GetCell k3)) else acc2)
        acc =
      (⟨acc.1.maxVal, acc.1.bits ||| orFoldIf b i (fun j => b.BoxCell (b.BoxForCell i) j) l⟩,
       ⟨acc.2.1.maxVal, acc.2.1.bits ||| orFoldIf b i (fun j => b.ColCell (b.ColForCell i) j) l⟩,
       ⟨acc.2.2.maxVal, acc.2.2.bits ||| orFoldIf b i (fun j => b.RowCell (b.RowForCell i) j) l⟩) := by
  intro l
  induction l with
  | nil =>
    intro acc
    simp only [List.foldl_nil, orFoldIf, Nat.or_zero]
  | cons x xs ih =>
    intro acc
    rw [List.foldl_cons, ih]
    have hro : ∀ (f : Nat → Nat) (l : List Nat) (j : Nat),
        orFoldIf b i f (j :: l) =
          (if f j != i && (b.GetCell (f j)).Fixed then (b.GetCell (f j)).bits else 0) |||
            orFoldIf b i f l := by
      intro f l j
      show List.foldl _ (if f j != i && (b.GetCell (f j)).Fixed then 0 ||| (b.GetCell (f j)).bits else 0) l = _
      by_cases hc : (f j != i && (b.GetCell (f j)).Fixed) = true
      · rw [if_pos hc, if_pos hc, Nat.zero_or, foldl_orIf_acc]
        rfl
      · rw [if_neg hc, if_neg hc, Nat.zero_or]
        rfl
    by_cases h1 : (b.BoxCell (b.BoxForCell i) x != i && (b.GetCell (b.BoxCell (b.BoxForCell i) x)).Fixed) = true <;>
      by_cases h2 : (b.ColCell (b.ColForCell i) x != i && (b.GetCell (b.ColCell (b.ColForCell i) x)).Fixed) = true <;>
        by_cases h3 : (b.RowCell (b.RowForCell i) x != i && (b.GetCell (b.RowCell (b.RowForCell i) x)).Fixed) = true <;>
          simp only [h1, h2, h3, Bool.false_eq_true, if_true, if_false, hro,
            ValueSet.add, Nat.or_assoc, Nat.zero_or, Nat.or_zero]

/-- Conditional or-folds split over list append. -/
theorem foldl_orIf_append (p : Nat → Bool) (g : Nat → Nat) (l1 l2 : List Nat) :
    (l1 ++ l2).foldl (fun w k => if p k then w ||| g k else w) 0 =
      l1.foldl (fun w k => if p k then w ||| g k else w) 0 |||
        l2.foldl (fun w k => if p k then w ||| g k else w) 0 := by
  rw [List.foldl_append]
  exact foldl_orIf_acc p g l2 (l1.foldl (fun w k => if p k then w ||| g k else w) 0)

/-- The box+col+row union built by `Rule1_Elimination`'s loop is exactly
the spec's flat union of the fixed peer values. -/
theorem collectFixed_spec (b : Board) (i : Nat) :
    ((collectFixed b i).2.2.add (collectFixed b i).2.1).add (collectFixed b i).1 =
      specFixedUnion b i := by
  have hcf : collectFixed b i =
      (⟨(ValueSet.Init b.GetNumUnits).maxVal,
          (ValueSet.Init b.GetNumUnits).bits |||
            orFoldIf b i (fun j => b.BoxCell (b.BoxForCell i) j) (List.range b.numUnits)⟩,
       ⟨(ValueSet.Init b.GetNumUnits).maxVal,
          (ValueSet.Init b.GetNumUnits).bits |||
            orFoldIf b i (fun j => b.ColCell (b.ColForCell i) j) (List.range b.numUnits)⟩,
       ⟨(ValueSet.Init b.GetNumUnits).maxVal,
          (ValueSet.Init b.GetNumUnits).bits |||
            orFoldIf b i (fun j => b.RowCell (b.RowForCell i) j) (List.range b.numUnits)⟩) :=
    collectFixed_go b i (List.range b.numUnits)
      (ValueSet.Init b.GetNumUnits, ValueSet.Init b.GetNumUnits, ValueSet.Init b.GetNumUnits)
  rw [hcf]
  refine valueSet_ext rfl ?_
  show (ValueSet.Init b.GetNumUnits).bits |||
        orFoldIf b i (fun j => b.RowCell (b.RowForCell i) j) (List.range b.numUnits) |||
      ((ValueSet.Init b.GetNumUnits).bits |||
        orFoldIf b i (fun j => b.ColCell (b.ColForCell i) j) (List.range b.numUnits)) |||
      ((ValueSet.Init b.GetNumUnits).bits |||
        orFoldIf b i (fun j => b.BoxCell (b.BoxForCell i) j) (List.range b.numUnits)) =
      (specFixedUnion b i).bits
  simp only [ValueSet.Init, Nat.zero_or]
  show _ = (((List.range b.GetNumUnits).map (fun j => b.BoxCell (b.BoxForCell i) j) ++
      (List.range b.GetNumUnits).map (fun j => b.ColCell (b.ColForCell i) j) ++
      (List.range b.GetNumUnits).map (fun j => b.RowCell (b.RowForCell i) j)).filter
        (fun k => k != i && (b.GetCell k).Fixed)).foldl
      (fun w k => w ||| (b.GetCell k).bits) 0
  rw [foldl_or_filter, foldl_orIf_append, foldl_orIf_append,
    List.foldl_map, List.foldl_map, List.foldl_map]
  show orFoldIf b i (fun j => b.RowCell (b.RowForCell i) j) (List.range b.numUnits) |||
      orFoldIf b i (fun j => b.ColCell (b.ColForCell i) j) (List.range b.numUnits) |||
      orFoldIf b i (fun j => b.BoxCell (b.BoxForCell i) j) (List.range b.numUnits) =
    orFoldIf b i (fun j => b.BoxCell (b.BoxForCell i) j) (List.range b.GetNumUnits) |||
      orFoldIf b i (fun j => b.ColCell (b.ColForCell i) j) (List.range b.GetNumUnits) |||
      orFoldIf b i (fun j => b.RowCell (b.RowForCell i) j) (List.range b.GetNumUnits)
  show orFoldIf b i (fun j => b.RowCell (b.RowForCell i) j) (List.range b.numUnits) |||
      orFoldIf b i (fun j => b.ColCell (b.ColForCell i) j) (List.range b.numUnits) |||
      orFoldIf b i (fun j => b.BoxCell (b.BoxForCell i) j) (List.range b.numUnits) =
    orFoldIf b i (fun j => b.BoxCell (b.BoxForCell i) j) (List.range b.numUnits) |||
      orFoldIf b i (fun j => b.ColCell (b.ColForCell i) j) (List.range b.numUnits) |||
      orFoldIf b i (fun j => b.RowCell (b.RowForCell i) j) (List.range b.numUnits)
  generalize orFoldIf b i (fun j => b.RowCell (b.RowForCell i) j) (List.range b.numUnits) = R
  generalize orFoldIf b i (fun j => b.ColCell (b.ColForCell i) j) (List.range b.numUnits) = C
  generalize orFoldIf b i (fun j => b.BoxCell (b.BoxForCell i) j) (List.range b.numUnits) = B
  rw [Nat.or_comm R C, Nat.or_assoc, Nat.or_comm R B, ← Nat.or_assoc, Nat.or_comm C B]

/-- **C1** (corrected).  For a non-empty, non-fixed cell `i`, Rule 1 does
build the spec's union `F` of the fixed peer values, but it branches on
whether the *complement* `¬F` is a singleton — not on whether `c ∧ ¬F`
is — and in that branch it writes `¬F` itself (not `c ∧ ¬F`) via
`SetCellAndPropagate`; otherwise it intersects the cell with `¬F` and
returns `false` even when that intersection is a singleton, so the return
value is *not* "the cell was fixed by this rule" (see the
counterexample). -/
theorem claim_C1_rule1_branches (fuel : Nat) (b : Board) (i : Nat)
    (hne : (b.GetCell i).Empty = false) (hnf : (b.GetCell i).Fixed = false) :
    Rule1_Elimination (fuel + 1) b i =
      if (specFixedUnion b i).compl.Fixed then
        (SetCellAndPropagate fuel b i (specFixedUnion b i).compl, true)
      else
        (b.SetCellDirect i ((b.GetCell i).inter (specFixedUnion b i).compl), false) := by
  simp only [Rule1_Elimination, hne, hnf, Bool.or_self, Bool.false_eq_true, if_false]
  rw [collectFixed_spec]

/-- An order-2 board: cell 0 holds `{1,2}`, its row/box peer cell 1 is
fixed to `{2}`, its row peer cell 2 is fixed to `{4}`, every other cell
holds the full universe `{1,2,3,4}`. -/
def c1Board : Board := ⟨2, 0xFFFFFFFFFFFFF823, 2, 0⟩

/-- Counterexample to claim C1 as stated: on `c1Board`, cell 0's fixed
peers carry `F = {2,4}`, so `¬F = {1,3}` is not a singleton and Rule 1
takes its else-branch, writing `c ∧ ¬F = {1}` — the cell *was* fixed by
this rule — yet it returns `false` and leaves `num_fixed_cells`
unchanged. -/
theorem claim_C1_return_counterexample :
    (c1Board.GetCell 0).Empty = false ∧ (c1Board.GetCell 0).Fixed = false ∧
      (Rule1_Elimination 5 c1Board 0).2 = false ∧
      ((Rule1_Elimination 5 c1Board 0).1.GetCell 0).Fixed = true ∧
      (Rule1_Elimination 5 c1Board 0).1.numFixedCells = c1Board.numFixedCells := by
  decide

/-- Witness for C1: the corrected branch theorem applied to `c1Board` at
cell 0. -/
theorem claim_C1_rule1_branches_witness :
    ((c1Board.GetCell 0).Empty = false ∧ (c1Board.GetCell 0).Fixed = false) ∧
      Rule1_Elimination 5 c1Board 0 =
        (if (specFixedUnion c1Board 0).compl.Fixed then
          (SetCellAndPropagate 4 c1Board 0 (specFixedUnion c1Board 0).compl, true)
        else
          (c1Board.SetCellDirect 0 ((c1Board.GetCell 0).inter (specFixedUnion c1Board 0).compl),
            false)) :=
  ⟨⟨by decide, by decide⟩, claim_C1_rule1_branches 4 c1Board 0 (by decide) (by decide)⟩

/-- `lowBitAux` ignores the fuel once it dominates the word. -/
theorem lowBitAux_eq : ∀ f1 f2 n, n ≤ f1 → n ≤ f2 → lowBitAux f1 n = lowBitAux f2 n := by
  intro f1
  induction f1 with
  | zero =>
    intro f2 n h1 _
    have hn : n = 0 := Nat.le_zero.mp h1
    subst hn
    cases f2 with
    | zero => rfl
    | succ f2 => simp [lowBitAux]
  | succ f1 ih =>
    intro f2 n h1 h2
    cases f2 with
    | zero =>
      have hn : n = 0 := Nat.le_zero.mp h2
      subst hn
      simp [lowBitAux]
    | succ f2 =>
      by_cases hn : n = 0
      · subst hn; simp [lowBitAux]
      · show (if n = 0 then 0 else if n % 2 = 1 then 0 else lowBitAux f1 (n / 2) + 1) =
          (if n = 0 then 0 else if n % 2 = 1 then 0 else lowBitAux f2 (n / 2) + 1)
        rw [if_neg hn, if_neg hn]
        by_cases ho : n % 2 = 1
        · rw [if_pos ho, if_pos ho]
        · rw [if_neg ho, if_neg ho, ih f2 (n / 2) (by omega) (by omega)]

/-- The binary recurrence of `lowBit` on even words. -/
theorem lowBit_rec (n : Nat) (hn : n ≠ 0) (he : n % 2 = 0) :
    lowBit n = lowBit (n / 2) + 1 := by
  cases n with
  | zero => exact absurd rfl hn
  | succ m =>
    show lowBitAux (m + 1) (m + 1) = lowBitAux ((m + 1) / 2) ((m + 1) / 2) + 1
    have h1 : lowBitAux (m + 1) (m + 1) = lowBitAux m ((m + 1) / 2) + 1 := by
      show (if m + 1 = 0 then 0 else
          if (m + 1) % 2 = 1 then 0 else lowBitAux m ((m + 1) / 2) + 1) = _
      rw [if_neg (Nat.succ_ne_zero m), if_neg (by omega)]
    rw [h1]
    congr 1
    exact lowBitAux_eq m ((m + 1) / 2) ((m + 1) / 2) (by omega) (Nat.le_refl _)

/-- `lowBit` recovers the exponent of a power of two. -/
theorem lowBit_two_pow (d : Nat) : lowBit (2 ^ d) = d := by
  induction d with
  | zero => rfl
  | succ d ih =>
    have hp : (2 : Nat) ^ (d + 1) = 2 ^ d * 2 := by ring
    have hpos : (0 : Nat) < 2 ^ d := Nat.two_pow_pos d
    have hne : (2 : Nat) ^ (d + 1) ≠ 0 := by omega
    have he : (2 : Nat) ^ (d + 1) % 2 = 0 := by rw [hp]; exact Nat.mul_mod_left _ _
    rw [lowBit_rec _ hne he]
    have hdiv : (2 : Nat) ^ (d + 1) / 2 = 2 ^ d := by rw [hp]; exact Nat.mul_div_cancel _ (by omega)
    rw [hdiv, ih]

/-- A word below `2^m` has at most `m` set bits. -/
theorem popCount_le_of_lt : ∀ m n, n < 2 ^ m → popCount n ≤ m := by
  intro m
  induction m with
  | zero =>
    intro n h
    have : n = 0 := by omega
    subst this
    exact Nat.le_refl 0
  | succ m ih =>
    intro n h
    by_cases hn : n = 0
    · subst hn; exact Nat.zero_le _
    · rw [popCount_rec n hn]
      have hp : (2 : Nat) ^ (m + 1) = 2 * 2 ^ m := by ring
      have hd : n / 2 < 2 ^ m := by omega
      have := ih (n / 2) hd
      omega

/-- The all-ones word of width `m` has exactly `m` set bits. -/
theorem popCount_mask (m : Nat) : popCount (2 ^ m - 1) = m := by
  induction m with
  | zero => rfl
  | succ m ih =>
    have hp : (2 : Nat) ^ (m + 1) = 2 * 2 ^ m := by ring
    have hpos : (0 : Nat) < 2 ^ m := Nat.two_pow_pos m
    have hne : (2 : Nat) ^ (m + 1) - 1 ≠ 0 := by omega
    rw [popCount_rec _ hne]
    have h1 : ((2 : Nat) ^ (m + 1) - 1) % 2 = 1 := by omega
    have h2 : ((2 : Nat) ^ (m + 1) - 1) / 2 = 2 ^ m - 1 := by omega
    rw [h1, h2, ih]
    omega

/-- A word below `2^m` has `m` set bits exactly when it is the all-ones
word of width `m`. -/
theorem popCount_eq_iff_eq_mask : ∀ m n, n < 2 ^ m → (popCount n = m ↔ n = 2 ^ m - 1) := by
  intro m
  induction m with
  | zero =>
    intro n h
    have : n = 0 := by omega
    subst this
    simp [popCount_zero]
  | succ m ih =>
    intro n h
    constructor
    · intro hpc
      by_cases hn : n = 0
      · subst hn
        rw [popCount_zero] at hpc
        omega
      · rw [popCount_rec n hn] at hpc
        have hp : (2 : Nat) ^ (m + 1) = 2 * 2 ^ m := by ring
        have hd : n / 2 < 2 ^ m := by omega
        have hle := popCount_le_of_lt m (n / 2) hd
        have h1 : n % 2 = 1 := by omega
        have h2 : popCount (n / 2) = m := by omega
        have h3 : n / 2 = 2 ^ m - 1 := (ih (n / 2) hd).mp h2
        have hpos : (0 : Nat) < 2 ^ m := Nat.two_pow_pos m
        omega
    · intro hmask
      subst hmask
      exact popCount_mask (m + 1)

/-- The word of a `ValueSet.add`-fold is the or-fold of the words. -/
theorem bits_foldl_add (g : Nat → ValueSet) :
    ∀ (l : List Nat) (v : ValueSet),
      (l.foldl (fun a j => a.add (g j)) v).bits =
        l.foldl (fun w j => w ||| (g j).bits) v.bits := by
  intro l
  induction l with
  | nil => intro v; rfl
  | cons x xs ih =>
    intro v
    rw [List.foldl_cons, List.foldl_cons, ih]
    rfl

/-- Bit `d` of an or-fold is set when it is set in the seed or in any
element. -/
theorem testBit_foldl_or (g : Nat → Nat) (d : Nat) :
    ∀ (l : List Nat) (w : Nat),
      (l.foldl (fun a j => a ||| g j) w).testBit d =
        (w.testBit d || l.any (fun j => (g j).testBit d)) := by
  intro l
  induction l with
  | nil => intro w; simp
  | cons x xs ih =>
    intro w
    rw [List.foldl_cons, ih (w ||| g x), Nat.testBit_or]
    simp [Bool.or_assoc]

/-- An or-fold of words below `2^m` stays below `2^m`. -/
theorem foldl_or_lt (g : Nat → Nat) (m : Nat) :
    ∀ (l : List Nat) (w : Nat), w < 2 ^ m → (∀ j ∈ l, g j < 2 ^ m) →
      l.foldl (fun a j => a ||| g j) w < 2 ^ m := by
  intro l
  induction l with
  | nil => intro w hw _; exact hw
  | cons x xs ih =>
    intro w hw hl
    rw [List.foldl_cons]
    exact ih _ (Nat.or_lt_two_pow hw (hl x (List.mem_cons_self x xs)))
      (fun j hj => hl j (List.mem_cons_of_mem x hj))

/-- A stored cell word never exceeds the width of the universe. -/
theorem getCell_bits_lt (b : Board) (i : Nat) : (b.GetCell i).bits < 2 ^ b.numUnits := by
  rw [getCell_bits]
  have h1 : (b.cells >>> (b.numUnits * i)) &&& ValueSet.maskOf b.numUnits ≤
      ValueSet.maskOf b.numUnits := Nat.and_le_right
  have h2 : ValueSet.maskOf b.numUnits < 2 ^ b.numUnits := by
    show 2 ^ b.numUnits - 1 < 2 ^ b.numUnits
    have := Nat.two_pow_pos b.numUnits
    omega
  omega

/-- Boards with the same cell count have the same order (the cell count is
the fourth power of the order). -/
theorem cellCount_order_inj (x p : Board) (h : x.CellCount = p.CellCount) : x.order = p.order := by
  have e : ∀ b : Board, b.CellCount = b.order ^ 4 := by
    intro b
    show b.order * b.order * (b.order * b.order) = _
    ring
  rw [e, e] at h
  by_contra hne
  rcases Nat.lt_or_gt_of_ne hne with hlt | hlt
  · exact absurd h (Nat.ne_of_lt (Nat.pow_lt_pow_left hlt (by omega)))
  · exact absurd h.symm (Nat.ne_of_lt (Nat.pow_lt_pow_left hlt (by omega)))

/-- Row peer indices stay inside the board. -/
theorem rowCell_lt (b : Board) (u j : Nat) (hu : u < b.numUnits) (hj : j < b.numUnits) :
    b.RowCell u j < b.numCells := by
  show u * b.numUnits + j < b.numUnits * b.numUnits
  have h2 : (u + 1) * b.numUnits ≤ b.numUnits * b.numUnits := Nat.mul_le_mul_right _ hu
  have h3 : (u + 1) * b.numUnits = u * b.numUnits + b.numUnits := by ring
  omega

/-- Column peer indices stay inside the board. -/
theorem colCell_lt (b : Board) (u j : Nat) (hu : u < b.numUnits) (hj : j < b.numUnits) :
    b.ColCell u j < b.numCells := by
  show j * b.numUnits + u < b.numUnits * b.numUnits
  have h2 : (j + 1) * b.numUnits ≤ b.numUnits * b.numUnits := Nat.mul_le_mul_right _ hj
  have h3 : (j + 1) * b.numUnits = j * b.numUnits + b.numUnits := by ring
  omega

/-- Box peer indices stay inside the board. -/
theorem boxCell_lt (b : Board) (u j : Nat) (hu : u < b.numUnits) (hj : j < b.numUnits) :
    b.BoxCell u j < b.numCells := by
  show (u % b.order) * b.order + (u / b.order) * (b.order * b.order * b.order) +
      j % b.order + (j / b.order) * (b.order * b.order) <
    b.numUnits * b.numUnits
  have ho : 0 < b.order := by
    by_contra h0
    have : b.order = 0 := by omega
    have hnu : b.numUnits = 0 := by
      show b.order * b.order = 0
      rw [this]
    omega
  have hu2 : u < b.order * b.order := hu
  have hj2 : j < b.order * b.order := hj
  have hmu : u % b.order < b.order := Nat.mod_lt u ho
  have hmj : j % b.order < b.order := Nat.mod_lt j ho
  have hdu : u / b.order < b.order := Nat.div_lt_of_lt_mul hu2
  have hdj : j / b.order < b.order := Nat.div_lt_of_lt_mul hj2
  have h1 : (u % b.order) * b.order ≤ (b.order - 1) * b.order :=
    Nat.mul_le_mul_right _ (by omega)
  have h2 : (u / b.order) * (b.order * b.order * b.order) ≤
      (b.order - 1) * (b.order * b.order * b.order) := Nat.mul_le_mul_right _ (by omega)
  have h3 : (j / b.order) * (b.order * b.order) ≤ (b.order - 1) * (b.order * b.order) :=
    Nat.mul_le_mul_right _ (by omega)
  have e1 : (b.order - 1) * b.order = b.order * b.order - b.order := by
    rw [Nat.sub_mul, one_mul]
  have e2 : (b.order - 1) * (b.order * b.order * b.order) =
      b.order * b.order * b.order * b.order - b.order * b.order * b.order := by
    rw [Nat.sub_mul, one_mul]
    congr 1
    ring
  have e3 : (b.order - 1) * (b.order * b.order) =
      b.order * b.order * b.order - b.order * b.order := by
    rw [Nat.sub_mul, one_mul]
    congr 1
    ring
  have hBo : b.order ≤ b.order * b.order := Nat.le_mul_of_pos_left b.order ho
  have hCB : b.order * b.order ≤ b.order * b.order * b.order :=
    Nat.le_mul_of_pos_right _ ho
  have hDC : b.order * b.order * b.order ≤ b.order * b.order * b.order * b.order :=
    Nat.le_mul_of_pos_right _ ho
  have hD : b.numUnits * b.numUnits = b.order * b.order * b.order * b.order := by
    show b.order * b.order * (b.order * b.order) = _
    ring
  omega

/-- A map of `range n` that covers every value below `n` is a permutation
of `range n`. -/
theorem perm_range_of_surj (n : Nat) (f : Nat → Nat)
    (hsurj : ∀ d < n, ∃ j < n, f j = d) :
    ((List.range n).map f).Perm (List.range n) := by
  have hsub : List.range n ⊆ (List.range n).map f := by
    intro d hd
    obtain ⟨j, hj, hfj⟩ := hsurj d (List.mem_range.mp hd)
    exact List.mem_map.mpr ⟨j, List.mem_range.mpr hj, hfj⟩
  have hsp : (List.range n).Subperm ((List.range n).map f) :=
    (List.nodup_range n).subperm hsub
  exact (hsp.perm_of_length_le (by simp)).symm

/-- A fixed cell's word is the power of two at its `Index`, and the index
lies inside the universe. -/
theorem fixed_getCell_eq (x : Board) (k : Nat) (hfix : (x.GetCell k).Fixed = true) :
    (x.GetCell k).bits = 2 ^ (x.GetCell k).Index ∧ (x.GetCell k).Index < x.numUnits := by
  obtain ⟨d, hd⟩ := (fixed_iff_exists_pow _).mp hfix
  have hidx : (x.GetCell k).Index = d := by
    show lowBit (x.GetCell k).bits = d
    rw [hd, lowBit_two_pow]
  have hlt : 2 ^ d < 2 ^ x.numUnits := hd ▸ getCell_bits_lt x k
  have hdlt : d < x.numUnits := by
    by_contra hge
    have : 2 ^ x.numUnits ≤ 2 ^ d := Nat.pow_le_pow_right (by omega) (by omega)
    omega
  refine ⟨?_, ?_⟩
  · rw [hidx]; exact hd
  · rw [hidx]; exact hdlt

/-- On a fixed cell, a set bit pins down the `Index`. -/
theorem index_of_testBit (x : Board) (k d : Nat) (hfix : (x.GetCell k).Fixed = true)
    (hbit : (x.GetCell k).bits.testBit d = true) : (x.GetCell k).Index = d := by
  obtain ⟨he, _⟩ := fixed_getCell_eq x k hfix
  rw [he, Nat.testBit_two_pow] at hbit
  exact of_decide_eq_true hbit

/-- A fixed cell's word has the bit at its `Index` set. -/
theorem testBit_index_self (x : Board) (k : Nat) (hfix : (x.GetCell k).Fixed = true) :
    (x.GetCell k).bits.testBit (x.GetCell k).Index = true := by
  obtain ⟨he, _⟩ := fixed_getCell_eq x k hfix
  rw [he, Nat.testBit_two_pow]
  exact decide_eq_true rfl

/-- The values `1…N`. -/
def oneToN (n : Nat) : List Nat := (List.range n).map (fun d => d + 1)

/-- The list of values a board shows along one unit (row, column or box),
reading cell `cellOf j` for `j < n`. -/
def unitVals (x : Board) (cellOf : Nat → Nat) (n : Nat) : List Nat :=
  (List.range n).map (fun j => (x.GetCell (cellOf j)).Index + 1)

/-- On a complete board, the `Count == numUnits` test `CheckSolution` runs
on a unit's union is exactly "the unit's values are a permutation of
`1…N`". -/
theorem unit_count_iff_perm (p x : Board) (cellOf : Nat → Nat)
    (hN : x.numUnits = p.numUnits)
    (hidx : ∀ j < p.numUnits, cellOf j < x.CellCount)
    (hcomp : ∀ i < x.CellCount, (x.GetCell i).Fixed = true) :
    (((List.range p.numUnits).foldl
        (fun a j => a.add (x.GetCell (cellOf j))) (ValueSet.Init p.numUnits)).Count
      == p.numUnits) = true ↔
    (unitVals x cellOf p.numUnits).Perm (oneToN p.numUnits) := by
  have hbits : ((List.range p.numUnits).foldl
      (fun a j => a.add (x.GetCell (cellOf j))) (ValueSet.Init p.numUnits)).bits =
      (List.range p.numUnits).foldl (fun w j => w ||| (x.GetCell (cellOf j)).bits) 0 :=
    bits_foldl_add _ _ _
  have hlt : (List.range p.numUnits).foldl
      (fun w j => w ||| (x.GetCell (cellOf j)).bits) 0 < 2 ^ p.numUnits := by
    refine foldl_or_lt _ _ _ _ (Nat.two_pow_pos _) ?_
    intro j _
    have h1 := getCell_bits_lt x (cellOf j)
    rw [hN] at h1
    exact h1
  have h0 : (((List.range p.numUnits).foldl
      (fun a j => a.add (x.GetCell (cellOf j))) (ValueSet.Init p.numUnits)).Count
        == p.numUnits) = true ↔
      (List.range p.numUnits).foldl (fun w j => w ||| (x.GetCell (cellOf j)).bits) 0 =
        2 ^ p.numUnits - 1 := by
    rw [beq_iff_eq]
    show popCount ((List.range p.numUnits).foldl
        (fun a j => a.add (x.GetCell (cellOf j))) (ValueSet.Init p.numUnits)).bits =
        p.numUnits ↔ _
    rw [hbits]
    exact popCount_eq_iff_eq_mask _ _ hlt
  have hsurj_iff : ((List.range p.numUnits).foldl
        (fun w j => w ||| (x.GetCell (cellOf j)).bits) 0 = 2 ^ p.numUnits - 1) ↔
      (∀ d < p.numUnits, ∃ j < p.numUnits, (x.GetCell (cellOf j)).Index = d) := by
    constructor
    · intro hm d hd
      have hbit : ((List.range p.numUnits).foldl
          (fun w j => w ||| (x.GetCell (cellOf j)).bits) 0).testBit d = true := by
        rw [hm, Nat.testBit_two_pow_sub_one]
        exact decide_eq_true hd
      rw [testBit_foldl_or] at hbit
      have hany : (List.range p.numUnits).any
          (fun j => ((x.GetCell (cellOf j)).bits).testBit d) = true := by
        simpa using hbit
      obtain ⟨j, hjmem, hjbit⟩ := List.any_eq_true.mp hany
      have hjlt : j < p.numUnits := List.mem_range.mp hjmem
      exact ⟨j, hjlt, index_of_testBit x (cellOf j) d (hcomp _ (hidx j hjlt)) hjbit⟩
    · intro hs
      refine Nat.eq_of_testBit_eq ?_
      intro t
      rw [Nat.testBit_two_pow_sub_one, testBit_foldl_or]
      by_cases ht : t < p.numUnits
      · obtain ⟨j, hjlt, hjidx⟩ := hs t ht
        have hfix := hcomp _ (hidx j hjlt)
        have hbit := testBit_index_self x (cellOf j) hfix
        rw [hjidx] at hbit
        have hany : (List.range p.numUnits).any
            (fun j => ((x.GetCell (cellOf j)).bits).testBit t) = true :=
          List.any_eq_true.mpr ⟨j, List.mem_range.mpr hjlt, hbit⟩
        simp [hany, ht]
      · have hany : (List.range p.numUnits).any
            (fun j => ((x.GetCell (cellOf j)).bits).testBit t) = false := by
          rw [List.any_eq_false]
          intro j _
          rw [Bool.not_eq_true]
          apply Nat.testBit_lt_two_pow
          have h1 := getCell_bits_lt x (cellOf j)
          rw [hN] at h1
          have h2 : (2 : Nat) ^ p.numUnits ≤ 2 ^ t := Nat.pow_le_pow_right (by omega) (by omega)
          omega
        simp [hany, ht]
  have hperm_iff : (∀ d < p.numUnits, ∃ j < p.numUnits, (x.GetCell (cellOf j)).Index = d) ↔
      (unitVals x cellOf p.numUnits).Perm (oneToN p.numUnits) := by
    constructor
    · intro hs
      have hp := (perm_range_of_surj p.numUnits (fun j => (x.GetCell (cellOf j)).Index) hs).map
        (fun d => d + 1)
      simpa [unitVals, oneToN, List.map_map, Function.comp] using hp
    · intro hp d hd
      have hmem : d + 1 ∈ oneToN p.numUnits := by
        simp only [oneToN, List.mem_map, List.mem_range]
        exact ⟨d, hd, rfl⟩
      have hmem2 : d + 1 ∈ unitVals x cellOf p.numUnits := (hp.mem_iff).mpr hmem
      simp only [unitVals, List.mem_map, List.mem_range] at hmem2
      obtain ⟨j, hjlt, hje⟩ := hmem2
      exact ⟨j, hjlt, by omega⟩
  exact h0.trans (hsurj_iff.trans hperm_iff)

/-- Modelled from the spec: "`check_solution(X)` is true iff X is complete
and every row/col/box is a permutation of 1…N and all fixed cells of the
puzzle equal the corresponding cells of X" — with the consistency clause
referring to the cells of `p` that are fixed *now* (this is the corrected
reading; the counterexample shows the pre-CP reading is wrong). -/
def SpecSolution (p x : Board) : Prop :=
  x.CellCount = p.CellCount ∧
  (∀ i < x.CellCount, (x.GetCell i).Fixed = true) ∧
  (∀ u < p.numUnits,
     (unitVals x (p.RowCell u) p.numUnits).Perm (oneToN p.numUnits) ∧
     (unitVals x (p.ColCell u) p.numUnits).Perm (oneToN p.numUnits) ∧
     (unitVals x (p.BoxCell u) p.numUnits).Perm (oneToN p.numUnits)) ∧
  (∀ i < p.CellCount, (p.GetCell i).Fixed = true →
     (p.GetCell i).Index = (x.GetCell i).Index)

/-- **C2** (corrected).  `CheckSolution` accepts `X` exactly when `X` is
complete, every row, column and box of `X` is a permutation of `1…N`, and
every cell that is fixed in the *current* state of `P` (after the
constructor already ran constraint propagation over the givens) agrees
with `X` — not the initially-fixed cells of the pre-CP puzzle, see the
counterexample. -/
theorem claim_C2_check_solution (p x : Board) :
    CheckSolution p x = true ↔ SpecSolution p x := by
  by_cases hcc : x.CellCount = p.CellCount
  · have horder : x.order = p.order := cellCount_order_inj x p hcc
    have hN : x.numUnits = p.numUnits := by
      show x.order * x.order = p.order * p.order
      rw [horder]
    have hccF : ¬((x.CellCount != p.CellCount) = true) := fun h => (bne_iff_ne.mp h) hcc
    simp only [CheckSolution]
    rw [if_neg hccF, Bool.and_eq_true, Bool.and_eq_true]
    constructor
    · intro h
      obtain ⟨⟨hfix, hunits⟩, hcons⟩ := h
      have hcomp : ∀ i < x.CellCount, (x.GetCell i).Fixed = true := by
        intro i hi
        exact List.all_eq_true.mp hfix i (List.mem_range.mpr hi)
      refine ⟨hcc, hcomp, ?_, ?_⟩
      · intro u hu
        have h3 := List.all_eq_true.mp hunits u (List.mem_range.mpr hu)
        rw [Bool.and_eq_true, Bool.and_eq_true] at h3
        obtain ⟨⟨hrow, hcol⟩, hbox⟩ := h3
        have hridx : ∀ j < p.numUnits, p.RowCell u j < x.CellCount := by
          intro j hj
          rw [hcc]
          exact rowCell_lt p u j hu hj
        have hcidx : ∀ j < p.numUnits, p.ColCell u j < x.CellCount := by
          intro j hj
          rw [hcc]
          exact colCell_lt p u j hu hj
        have hbidx : ∀ j < p.numUnits, p.BoxCell u j < x.CellCount := by
          intro j hj
          rw [hcc]
          exact boxCell_lt p u j hu hj
        exact ⟨(unit_count_iff_perm p x (p.RowCell u) hN hridx hcomp).mp hrow,
          (unit_count_iff_perm p x (p.ColCell u) hN hcidx hcomp).mp hcol,
          (unit_count_iff_perm p x (p.BoxCell u) hN hbidx hcomp).mp hbox⟩
      · intro i hi hf
        have h4 := List.all_eq_true.mp hcons i (List.mem_range.mpr hi)
        rw [hf] at h4
        simp only [Bool.not_true, Bool.false_or] at h4
        exact beq_iff_eq.mp h4
    · intro hs
      obtain ⟨-, hcomp, hunits, hcons⟩ := hs
      refine ⟨⟨?_, ?_⟩, ?_⟩
      · exact List.all_eq_true.mpr (fun i hi => hcomp i (List.mem_range.mp hi))
      · refine List.all_eq_true.mpr ?_
        intro u humem
        have hu := List.mem_range.mp humem
        obtain ⟨hrow, hcol, hbox⟩ := hunits u hu
        have hridx : ∀ j < p.numUnits, p.RowCell u j < x.CellCount := by
          intro j hj
          rw [hcc]
          exact rowCell_lt p u j hu hj
        have hcidx : ∀ j < p.numUnits, p.ColCell u j < x.CellCount := by
          intro j hj
          rw [hcc]
          exact colCell_lt p u j hu hj
        have hbidx : ∀ j < p.numUnits, p.BoxCell u j < x.CellCount := by
          intro j hj
          rw [hcc]
          exact boxCell_lt p u j hu hj
        rw [Bool.and_eq_true, Bool.and_eq_true]
        exact ⟨⟨(unit_count_iff_perm p x (p.RowCell u) hN hridx hcomp).mpr hrow,
          (unit_count_iff_perm p x (p.ColCell u) hN hcidx hcomp).mpr hcol⟩,
          (unit_count_iff_perm p x (p.BoxCell u) hN hbidx hcomp).mpr hbox⟩
      · refine List.all_eq_true.mpr ?_
        intro i himem
        have hi := List.mem_range.mp himem
        by_cases hf : (p.GetCell i).Fixed = true
        · have := hcons i hi hf
          simp [hf, this]
        · have hf2 : (p.GetCell i).Fixed = false := Bool.not_eq_true _ ▸ eq_false_of_ne_true hf
          simp [hf2]
  · constructor
    · intro h
      exfalso
      simp only [CheckSolution] at h
      rw [if_pos (bne_iff_ne.mpr hcc)] at h
      exact Bool.false_ne_true h
    · intro hs
      exact absurd hs.1 hcc

/-- The original puzzle string of the counterexample: row 0 is
`123456785` (the last given conflicts with the earlier `5`), the other 72
cells are blank. -/
def c2S : List Char := ("123456785" ++ String.mk (List.replicate 72 '.')).toList

/-- The puzzle board built from `c2S` (the constructor runs CP as it sets
the givens). -/
def c2P : Board := mkBoard 100 c2S

/-- A complete cyclic Sudoku grid whose first row is `1…9`. -/
def c2xvals : List Nat :=
  [1,2,3,4,5,6,7,8,9,
   4,5,6,7,8,9,1,2,3,
   7,8,9,1,2,3,4,5,6,
   2,3,4,5,6,7,8,9,1,
   5,6,7,8,9,1,2,3,4,
   8,9,1,2,3,4,5,6,7,
   3,4,5,6,7,8,9,1,2,
   6,7,8,9,1,2,3,4,5,
   9,1,2,3,4,5,6,7,8]

/-- The grid `c2xvals` as a board. -/
def c2X : Board :=
  (List.range 81).foldl
    (fun b i => b.SetCellDirect i (ValueSet.ofValue 9 (c2xvals.getD i 0)))
    ⟨3, 0, 81, 0⟩

/-- Modelled from the spec: "all initially-fixed cells of the puzzle equal
the corresponding cells of X", for the original pre-CP puzzle string. -/
def givensMatch (s : List Char) (x : Board) : Prop :=
  ∀ i < s.length, s.getD i '.' ≠ '.' →
    (x.GetCell i).Index + 1 = charValue (orderOfLength s.length) (s.getD i '.')

instance (s : List Char) (x : Board) : Decidable (givensMatch s x) := by
  unfold givensMatch
  infer_instance

set_option maxRecDepth 100000 in
set_option maxHeartbeats 4000000 in
/-- Counterexample to claim C2 as stated: `CheckSolution` does *not*
compare against the pre-CP givens.  Setting the givens of `c2S` in index
order propagates cell 8 to the value 9 before its conflicting given `5` is
reached (a fixed cell is never overwritten), so the puzzle board's fixed
row 0 is `1…9`; the grid `c2X` is accepted although its cell 8 disagrees
with the initially-given `5`. -/
theorem claim_C2_preCP_counterexample :
    CheckSolution c2P c2X = true ∧ ¬ givensMatch c2S c2X := by
  constructor
  · decide
  · decide

end Pseudoku
